import Mathlib

/-!
Formal model of the racing-programme comparison tool `carreras_desde_pdf.py`.

Each Python function reached by the verified claims is translated into an
executable Lean definition.  Modelling conventions:
* Python strings become `String` / `List Char`; Python `None` becomes `Option`.
* Monetary values are represented by `ℚ` in place of Python floats: every
  amount the program manipulates is a short decimal literal, so rational
  arithmetic reproduces the float computations exactly (the `0.01`
  comparison tolerance is `1/100`).  Rationals are built with the kernel
  friendly `mkRat` so that every definition evaluates by `decide`.
* Race numbers are `Int` (Python `int`), horse counts are `Nat`.
* The regular expressions of the source are compiled by hand into
  character-list matchers; backtracking is unfolded where the character
  classes make the search deterministic, and modelled explicitly (bounded
  tries) where it is not.
* Python dicts appear as insertion-ordered association lists.
-/

namespace Carreras

/-! ### Generic list/dictionary helpers -/

/-- First value bound to key `k` in an association list (Python `d[k]` / `d.get(k)`). -/
def lookupA {α β : Type} [DecidableEq α] (l : List (α × β)) (k : α) : Option β :=
  match l with
  | [] => none
  | (a, b) :: t => if a = k then some b else lookupA t k

/-- Keys of an association list, in order, possibly with repeats. -/
def keysA {α β : Type} (l : List (α × β)) : List α := l.map Prod.fst

/-- Python dict assignment `d[k] = v`: update the first binding in place, else append. -/
def setA {α β : Type} [DecidableEq α] (l : List (α × β)) (k : α) (v : β) : List (α × β) :=
  match l with
  | [] => [(k, v)]
  | (a, b) :: t => if a = k then (a, v) :: t else (a, b) :: setA t k v

/-- Concatenation of the images of `f`, as produced by a loop that `extend`s a list. -/
def bindA {α β : Type} (l : List α) (f : α → List β) : List β :=
  match l with
  | [] => []
  | a :: t => f a ++ bindA t f

/-- Python `set.add` streamed over a list: append each element not yet present. -/
def unionA {α : Type} [DecidableEq α] (old new : List α) : List α :=
  new.foldl (fun acc c => if c ∈ acc then acc else acc ++ [c]) old

/-- Insertion step for sorting race numbers. -/
def insertSorted (x : Int) : List Int → List Int
  | [] => [x]
  | y :: t => if x ≤ y then x :: y :: t else y :: insertSorted x t

/-- Insertion sort on `Int` (models Python `sorted` on race numbers). -/
def sortInt (l : List Int) : List Int := l.foldr insertSorted []

theorem mem_lookupA_keys {α β : Type} [DecidableEq α] (l : List (α × β)) (k : α) :
    (lookupA l k).isSome ↔ k ∈ keysA l := by
  induction l with
  | nil => simp [lookupA, keysA]
  | cons p t ih =>
    obtain ⟨a, b⟩ := p
    by_cases h : a = k
    · subst h; simp [lookupA, keysA]
    · simp [lookupA, keysA, h, ih, Ne.symm h]

theorem lookupA_eq_some_mem {α β : Type} [DecidableEq α] {l : List (α × β)} {k : α} {v : β}
    (h : lookupA l k = some v) : k ∈ keysA l := by
  have hs : (lookupA l k).isSome := by rw [h]; rfl
  exact (mem_lookupA_keys l k).mp hs

theorem mem_bindA {α β : Type} {l : List α} {f : α → List β} {b : β} :
    b ∈ bindA l f ↔ ∃ a ∈ l, b ∈ f a := by
  induction l with
  | nil => simp [bindA]
  | cons x t ih => simp [bindA, ih, List.mem_append, or_and_right, exists_or]

theorem mem_insertSorted {x a : Int} {l : List Int} :
    a ∈ insertSorted x l ↔ a = x ∨ a ∈ l := by
  induction l with
  | nil => simp [insertSorted]
  | cons y t ih =>
    by_cases h : x ≤ y
    · simp [insertSorted, h]
    · simp [insertSorted, h, ih]; tauto

theorem mem_sortInt {a : Int} {l : List Int} : a ∈ sortInt l ↔ a ∈ l := by
  induction l with
  | nil => simp [sortInt]
  | cons x t ih => simp [sortInt, mem_insertSorted] at *; tauto

theorem lookupA_setA {α β : Type} [DecidableEq α] (l : List (α × β)) (k k' : α) (v : β) :
    lookupA (setA l k v) k' = if k' = k then some v else lookupA l k' := by
  induction l with
  | nil =>
    by_cases h : k = k'
    · subst h; simp [setA, lookupA]
    · simp [setA, lookupA, Ne.symm h, h]
  | cons p t ih =>
    obtain ⟨a, b⟩ := p
    by_cases ha : a = k
    · subst ha
      by_cases h : a = k'
      · subst h; simp [setA, lookupA]
      · simp [setA, lookupA, h, Ne.symm h]
    · by_cases h : a = k'
      · subst h
        simp [setA, lookupA, ha, Ne.symm ha]
      · simp [setA, lookupA, ha, h, ih]

/-! ### Character classes and Python string primitives -/

/-- Python `\s` for the character set occurring in this program's inputs. -/
def esEspacio (c : Char) : Bool :=
  c == ' ' || c == '\t' || c == '\n' || c == '\r' || c == '\x0b' || c == '\x0c'

/-- Word characters for `\b` boundaries: ASCII alphanumerics, underscore, and the
Latin letters and ordinal signs that occur in the Spanish bet names. -/
def esPalabra (c : Char) : Bool :=
  c.isAlphanum || c == '_' ||
    ['ª', 'º', 'á', 'é', 'í', 'ó', 'ú', 'ñ', 'ü', 'Á', 'É', 'Í', 'Ó', 'Ú', 'Ñ', 'Ü'].contains c

/-- Python `str.strip()`. -/
def stripPy (l : List Char) : List Char :=
  ((l.dropWhile esEspacio).reverse.dropWhile esEspacio).reverse

/-- Python `str.upper()` on the ASCII alphabet used by race maps and codes. -/
def pyUpper (l : List Char) : List Char := l.map Char.toUpper

/-- Numeric value of a digit string. -/
def natVal (l : List Char) : ℕ :=
  l.foldl (fun n c => 10 * n + (c.toNat - '0'.toNat)) 0

/-- Optional sign of a Python numeric literal; returns (negative?, rest). -/
def pySignSplit (l : List Char) : Bool × List Char :=
  match l with
  | [] => (false, [])
  | c :: r => if c = '+' then (false, r) else if c = '-' then (true, r) else (false, c :: r)

/-- Exact rational value of a signed decimal mantissa `±d1.d2`. -/
def decValor (neg : Bool) (d1 d2 : List Char) : ℚ :=
  let m : ℕ := natVal d1 * Nat.pow 10 d2.length + natVal d2
  mkRat (if neg then -(m : Int) else (m : Int)) (Nat.pow 10 d2.length)

/-- Multiply a rational by `10^e` or `10^(-e)` (float exponent, exact). -/
def aplicaExp (q : ℚ) (eneg : Bool) (e : ℕ) : ℚ :=
  if eneg then mkRat q.num (q.den * Nat.pow 10 e)
  else mkRat (q.num * ((Nat.pow 10 e : ℕ) : Int)) q.den

/-- Exponent suffix of a float literal: `[sign]digits`, then end of string. -/
def expPart (base : ℚ) (l : List Char) : Option ℚ :=
  let p := pySignSplit l
  let d := p.2.span Char.isDigit
  if d.1 = [] ∨ d.2 ≠ [] then none
  else some (aplicaExp base p.1 (natVal d.1))

/-- Mantissa-and-exponent body of Python `float(s)` after stripping. -/
def pyFloatCore (l : List Char) : Option ℚ :=
  let p := pySignSplit l
  let m1 := p.2.span Char.isDigit
  let m2 : List Char × List Char :=
    match m1.2 with
    | '.' :: r => r.span Char.isDigit
    | _ => ([], m1.2)
  if m1.1 = [] ∧ m2.1 = [] then none
  else
    let base : ℚ := decValor p.1 m1.1 m2.1
    match m2.2 with
    | [] => some base
    | 'e' :: r => expPart base r
    | 'E' :: r => expPart base r
    | _ => none

/-- Python `float(s)` on the finite decimal-literal grammar (optional sign, digits
with at most one decimal point, optional exponent).  `inf`/`nan` and underscore
digit separators never occur in this program's numeric tokens and are outside
the model. -/
def pyFloat (l : List Char) : Option ℚ := pyFloatCore (stripPy l)

/-- Python `int(s)`: optional sign and a nonempty digit string, whitespace-stripped. -/
def pyInt (l : List Char) : Option Int :=
  let s := stripPy l
  let p := pySignSplit s
  if p.2 ≠ [] ∧ p.2.all Char.isDigit then
    some (if p.1 then -(natVal p.2 : Int) else (natVal p.2 : Int))
  else none

/-- Attach a character to the first part of a split result. -/
def consPart (c : Char) : List (List Char) → List (List Char)
  | [] => [[c]]
  | h :: t => (c :: h) :: t

/-- Python `str.split(sep)` for a single-character separator (keeps empty parts). -/
def splitOnChar (sep : Char) : List Char → List (List Char)
  | [] => [[]]
  | c :: rest =>
    if c = sep then [] :: splitOnChar sep rest else consPart c (splitOnChar sep rest)

theorem splitOnChar_ne_nil (sep : Char) (l : List Char) : splitOnChar sep l ≠ [] := by
  cases l with
  | nil => simp [splitOnChar]
  | cons c rest =>
    by_cases h : c = sep
    · simp [splitOnChar, h]
    · simp only [splitOnChar, if_neg h]
      cases splitOnChar sep rest <;> simp [consPart]

/-! ### `_parsear_monto_str` — the monetary token parser -/

/-- `_parsear_monto_str` (lines 315-351), on the character list of the token. -/
def parsearMonto (l : List Char) : Option ℚ :=
  if l = [] then none
  else
    let s := stripPy l
    if s = [] then none
    else if s.contains ',' then
      pyFloat ((s.filter (fun c => c != '.')).map (fun c => if c = ',' then '.' else c))
    else if s.contains '.' then
      let partes := splitOnChar '.' s
      if 2 ≤ partes.length ∧
          partes.all (fun p => !p.isEmpty && p.all Char.isDigit) = true ∧
          partes.getLast?.map List.length = some 3 then
        match pyFloat (s.filter (fun c => c != '.')) with
        | some v => some v
        | none => pyFloat s
      else pyFloat s
    else pyFloat s

/-- `_parsear_monto_str` on a `String` argument. -/
def parsear_monto_str (s : String) : Option ℚ := parsearMonto s.toList

/-- The monetary parser as the specification words it: a comma makes every
period a thousands separator and the comma the decimal point; otherwise, if
the token has periods, every period-separated segment is all digits and the
segment after the final period has exactly three digits, the periods are
stripped and the remaining digits are read as an integer amount; otherwise
the token is parsed as-is; empty or unparseable input gives `none`. -/
def parsearMontoSpec (l : List Char) : Option ℚ :=
  if l = [] then none
  else
    let s := stripPy l
    if s = [] then none
    else if s.contains ',' then
      pyFloat ((s.filter (fun c => c != '.')).map (fun c => if c = ',' then '.' else c))
    else if s.contains '.' then
      let partes := splitOnChar '.' s
      if 2 ≤ partes.length ∧
          partes.all (fun p => !p.isEmpty && p.all Char.isDigit) = true ∧
          partes.getLast?.map List.length = some 3 then
        some ((natVal (s.filter (fun c => c != '.')) : ℚ))
      else pyFloat s
    else pyFloat s

theorem all_flatten {p : Char → Bool} (ps : List (List Char))
    (h : ∀ q ∈ ps, q.all p = true) : (ps.foldr (· ++ ·) []).all p = true := by
  induction ps with
  | nil => simp
  | cons q qs ih =>
    rw [List.foldr_cons, List.all_append, Bool.and_eq_true]
    exact ⟨h q (by simp), ih (fun x hx => h x (by simp [hx]))⟩

theorem foldr_consPart (c : Char) (r : List (List Char)) :
    (consPart c r).foldr (· ++ ·) [] = c :: r.foldr (· ++ ·) [] := by
  cases r <;> simp [consPart]

theorem filter_ne_eq_flatten (sep : Char) (l : List Char) :
    l.filter (fun c => c != sep) = (splitOnChar sep l).foldr (· ++ ·) [] := by
  induction l with
  | nil => simp [splitOnChar]
  | cons c rest ih =>
    by_cases hc : c = sep
    · subst hc
      simp [splitOnChar, List.filter_cons, ih]
    · simp [splitOnChar, hc, List.filter_cons, foldr_consPart, ih]

theorem esEspacio_digit {c : Char} (hd : c.isDigit = true) : esEspacio c = false := by
  by_contra h
  have h1 : esEspacio c = true := by simpa using h
  unfold esEspacio at h1
  simp only [Bool.or_eq_true, beq_iff_eq] at h1
  rcases h1 with ((((h2 | h2) | h2) | h2) | h2) | h2 <;>
    (subst h2; exact absurd hd (by decide))

theorem takeWhile_all {α : Type} {p : α → Bool} {l : List α}
    (h : ∀ c ∈ l, p c = true) : l.takeWhile p = l := by
  induction l with
  | nil => rfl
  | cons c t ih =>
    rw [List.takeWhile_cons, if_pos (h c (by simp))]
    rw [ih (fun x hx => h x (by simp [hx]))]

theorem dropWhile_all {α : Type} {p : α → Bool} {l : List α}
    (h : ∀ c ∈ l, p c = true) : l.dropWhile p = [] := by
  induction l with
  | nil => rfl
  | cons c t ih =>
    rw [List.dropWhile_cons, if_pos (h c (by simp))]
    exact ih (fun x hx => h x (by simp [hx]))

theorem stripPy_of_no_space {l : List Char} (h : ∀ c ∈ l, esEspacio c = false) :
    stripPy l = l := by
  have h1 : l.dropWhile esEspacio = l := by
    cases l with
    | nil => rfl
    | cons c t => rw [List.dropWhile_cons, if_neg (by simp [h c (by simp)])]
  have h2 : l.reverse.dropWhile esEspacio = l.reverse := by
    cases hr : l.reverse with
    | nil => rfl
    | cons c t =>
      have hc : c ∈ l := by
        have hm : c ∈ l.reverse := by rw [hr]; simp
        simpa using hm
      rw [List.dropWhile_cons, if_neg (by simp [h c hc])]
  unfold stripPy
  rw [h1, h2, List.reverse_reverse]

theorem stripPy_all_digits {l : List Char} (h : l.all Char.isDigit = true) :
    stripPy l = l :=
  stripPy_of_no_space (fun c hc => esEspacio_digit (List.all_eq_true.mp h c hc))

theorem pySignSplit_digits {l : List Char} (hne : l ≠ []) (h : l.all Char.isDigit = true) :
    pySignSplit l = (false, l) := by
  cases l with
  | nil => exact absurd rfl hne
  | cons c t =>
    have hd : c.isDigit = true := List.all_eq_true.mp h c (by simp)
    have h1 : c ≠ '+' := fun hc => by rw [hc] at hd; exact absurd hd (by decide)
    have h2 : c ≠ '-' := fun hc => by rw [hc] at hd; exact absurd hd (by decide)
    simp [pySignSplit, h1, h2]

theorem pyFloat_digits {l : List Char} (hne : l ≠ []) (h : l.all Char.isDigit = true) :
    pyFloat l = some (mkRat (natVal l : Int) 1) := by
  unfold pyFloat pyFloatCore
  rw [stripPy_all_digits h, pySignSplit_digits hne h]
  simp only [List.span_eq_take_drop]
  rw [takeWhile_all (List.all_eq_true.mp h), dropWhile_all (List.all_eq_true.mp h)]
  simp only
  rw [if_neg (by simp [hne])]
  simp [decValor, natVal, Nat.pow]

/-- C2: the monetary parser applies comma-decimal, thousands-grouping and
plain-number rules in the stated order (proved as equality with the
specification-worded parser for every token), with the five documented
examples. -/
theorem c2_parsear_monto :
    (∀ s : String, parsear_monto_str s = parsearMontoSpec s.toList) ∧
      parsear_monto_str "5.000" = some 5000 ∧
      parsear_monto_str "1000,50" = some (1000.5 : ℚ) ∧
      parsear_monto_str "1.000,50" = some (1000.5 : ℚ) ∧
      parsear_monto_str "5.5" = some (5.5 : ℚ) ∧
      parsear_monto_str "" = none := by
  refine ⟨?_, by decide, ?_, ?_, ?_, by decide⟩
  · intro s
    unfold parsear_monto_str parsearMonto parsearMontoSpec
    set l := s.toList
    by_cases h0 : l = []
    · simp [h0]
    rw [if_neg h0, if_neg h0]
    set t := stripPy l with ht
    by_cases h1 : t = []
    · simp [h1]
    rw [if_neg h1, if_neg h1]
    by_cases h2 : t.contains ','
    · rw [if_pos h2, if_pos h2]
    rw [if_neg h2, if_neg h2]
    by_cases h3 : t.contains '.'
    · rw [if_pos h3, if_pos h3]
      set partes := splitOnChar '.' t with hpartes
      by_cases h4 : 2 ≤ partes.length ∧
          partes.all (fun p => !p.isEmpty && p.all Char.isDigit) = true ∧
          partes.getLast?.map List.length = some 3
      · rw [if_pos h4, if_pos h4]
        obtain ⟨hlen, hall, _⟩ := h4
        have hflat : t.filter (fun c => c != '.') = partes.foldr (· ++ ·) [] := by
          rw [hpartes]; exact filter_ne_eq_flatten '.' t
        have hparts : ∀ q ∈ partes, q.all Char.isDigit = true := by
          intro q hq
          have hv := List.all_eq_true.mp hall q hq
          simp only [Bool.and_eq_true] at hv
          exact hv.2
        have hdig : (t.filter (fun c => c != '.')).all Char.isDigit = true := by
          rw [hflat]
          exact all_flatten partes hparts
        have hne2 : t.filter (fun c => c != '.') ≠ [] := by
          rw [hflat]
          rcases hp : partes with _ | ⟨p, ps⟩
          · exact absurd (hpartes ▸ hp) (splitOnChar_ne_nil '.' t)
          · have hpne := List.all_eq_true.mp hall p (by rw [hp]; simp)
            simp only [Bool.and_eq_true] at hpne
            simp only [List.foldr_cons]
            intro hcon
            rcases List.append_eq_nil.mp hcon with ⟨hp0, _⟩
            rw [hp0] at hpne
            exact absurd hpne.1 (by decide)
        rw [pyFloat_digits hne2 hdig]
        rw [Rat.mkRat_one]
        push_cast
        rfl
      · rw [if_neg h4, if_neg h4]
    · rw [if_neg h3, if_neg h3]
  · have h : parsear_monto_str "1000,50" = some (mkRat 100050 100) := by decide
    rw [h]
    congr 1
    rw [Rat.mkRat_eq_divInt, Rat.divInt_eq_div]
    norm_num
  · have h : parsear_monto_str "1.000,50" = some (mkRat 100050 100) := by decide
    rw [h]
    congr 1
    rw [Rat.mkRat_eq_divInt, Rat.divInt_eq_div]
    norm_num
  · have h : parsear_monto_str "5.5" = some (mkRat 55 10) := by decide
    rw [h]
    congr 1
    rw [Rat.mkRat_eq_divInt, Rat.divInt_eq_div]
    norm_num

/-! ### `es_apuesta_excluida` — stage-exclusion predicate

The three regular expressions of lines 83-88 are compiled by hand.  All their
character classes are disjoint from the literal characters that follow them,
so the greedy `\s*` / optional `\.?` parts are deterministic. -/

/-- Case-insensitive prefix test against a lowercase pattern. -/
def leadsWithCI : List Char → List Char → Bool
  | [], _ => true
  | _ :: _, [] => false
  | p :: ps, c :: cs => (c.toLower == p) && leadsWithCI ps cs

/-- Greedy `\s*`. -/
def dropSpaces (l : List Char) : List Char := l.dropWhile esEspacio

/-- Optional literal period `\.?`. -/
def dropDot : List Char → List Char
  | '.' :: r => r
  | l => l

/-- Tail `\.?\s*pase` of the stage-marker alternatives. -/
def colaPase (l : List Char) : Bool :=
  leadsWithCI "pase".toList (dropSpaces (dropDot l))

/-- `_PATRON_EXCLUIR_PASE_SIN_FINAL` tried at one position:
`2do\.?\s*pase|3er\.?\s*pase|4to\.?\s*pase|5to\.?\s*pase|ultimo\s*pase`. -/
def marcadorPaseAt (l : List Char) : Bool :=
  (leadsWithCI "2do".toList l && colaPase (l.drop 3)) ||
  (leadsWithCI "3er".toList l && colaPase (l.drop 3)) ||
  (leadsWithCI "4to".toList l && colaPase (l.drop 3)) ||
  (leadsWithCI "5to".toList l && colaPase (l.drop 3)) ||
  (leadsWithCI "ultimo".toList l && leadsWithCI "pase".toList (dropSpaces (l.drop 6)))

/-- `re.search`: try a position matcher at every suffix, tracking the previous
character for `\b` boundaries. -/
def buscaAux (m : Option Char → List Char → Bool) : Option Char → List Char → Bool
  | _, [] => false
  | prev, c :: rest => m prev (c :: rest) || buscaAux m (some c) rest

/-- `\b` before a position: previous character absent or not a word character. -/
def noPalabraB : Option Char → Bool
  | none => true
  | some c => !esPalabra c

/-- `\b` after a match: end of input or a non-word character. -/
def bordeTras : List Char → Bool
  | [] => true
  | c :: _ => !esPalabra c

/-- Search for `_PATRON_EXCLUIR_PASE_SIN_FINAL`. -/
def contieneMarcadorPase (l : List Char) : Bool :=
  buscaAux (fun _ s => marcadorPaseAt s) none l

/-- `_PATRON_FINAL` (`\bfinal\b|final\s*pase`) tried at one position. -/
def finalAt (prev : Option Char) (l : List Char) : Bool :=
  (noPalabraB prev && leadsWithCI "final".toList l && bordeTras (l.drop 5)) ||
  (leadsWithCI "final".toList l && leadsWithCI "pase".toList (dropSpaces (l.drop 5)))

/-- Search for `_PATRON_FINAL`. -/
def contieneFinal (l : List Char) : Bool := buscaAux finalAt none l

/-- Tail `\.?\s*pase\b` of the first-stage pattern. -/
def colaPaseBorde (l : List Char) : Bool :=
  let l1 := dropSpaces (dropDot l)
  leadsWithCI "pase".toList l1 && bordeTras (l1.drop 4)

/-- `_PATRON_PRIMER_PASE` (`\b1er\.?\s*pase\b|\b1re\.?\s*pase\b`) at one position. -/
def primerPaseAt (prev : Option Char) (l : List Char) : Bool :=
  noPalabraB prev &&
    ((leadsWithCI "1er".toList l || leadsWithCI "1re".toList l) && colaPaseBorde (l.drop 3))

/-- Search for `_PATRON_PRIMER_PASE`. -/
def contienePrimerPase (l : List Char) : Bool := buscaAux primerPaseAt none l

/-- `nombre.strip().lower().startswith("doble")`. -/
def empiezaDoble (l : List Char) : Bool :=
  leadsWithCI "doble".toList (stripPy l)

/-- `es_apuesta_excluida` (lines 91-109). -/
def es_apuesta_excluida (nombre : String) : Bool :=
  let l := nombre.toList
  if l.isEmpty then false
  else if empiezaDoble l then false
  else if contieneMarcadorPase l then true
  else if contieneFinal l then !contienePrimerPase l
  else false

theorem es_apuesta_excluida_eq (n : String) :
    es_apuesta_excluida n =
      (!n.toList.isEmpty && !empiezaDoble n.toList &&
        (contieneMarcadorPase n.toList ||
          (contieneFinal n.toList && !contienePrimerPase n.toList))) := by
  unfold es_apuesta_excluida
  by_cases he : n.toList.isEmpty <;> by_cases hd : empiezaDoble n.toList <;>
    by_cases hm : contieneMarcadorPase n.toList <;> by_cases hf : contieneFinal n.toList <;>
    simp_all [List.isEmpty_iff]

/-- C3 counterexample: the claim's unconditional clauses fail on the code.
`"Doble 2do.Pase"` contains a 2nd-stage marker yet is not excluded (the
`doble` rule takes precedence), and `"Cadena Final 2do.Pase 1er.Pase"`
contains both a final marker and a first-stage qualifier yet IS excluded
(the stage-marker rule is checked before the final/first-stage exception). -/
theorem c3_contraejemplo :
    contieneMarcadorPase "Doble 2do.Pase".toList = true ∧
    es_apuesta_excluida "Doble 2do.Pase" = false ∧
    contieneFinal "Cadena Final 2do.Pase 1er.Pase".toList = true ∧
    contienePrimerPase "Cadena Final 2do.Pase 1er.Pase".toList = true ∧
    es_apuesta_excluida "Cadena Final 2do.Pase 1er.Pase" = true := by
  decide

/-- C3 (amended): the rules apply with precedence — a name whose trimmed
lowercase form begins with `doble` is never excluded; otherwise a name with a
2nd/3rd/4th/5th/last-stage marker is excluded; otherwise a name containing a
`final` marker is excluded exactly when it lacks a first-stage qualifier;
otherwise nothing is excluded.  The four documented examples follow. -/
theorem c3_es_apuesta_excluida :
    (∀ n : String, empiezaDoble n.toList = true → es_apuesta_excluida n = false) ∧
    (∀ n : String, empiezaDoble n.toList = false → contieneMarcadorPase n.toList = true →
      es_apuesta_excluida n = true) ∧
    (∀ n : String, empiezaDoble n.toList = false → contieneMarcadorPase n.toList = false →
      contieneFinal n.toList = true →
      es_apuesta_excluida n = !contienePrimerPase n.toList) ∧
    (∀ n : String, empiezaDoble n.toList = false → contieneMarcadorPase n.toList = false →
      contieneFinal n.toList = false → es_apuesta_excluida n = false) ∧
    es_apuesta_excluida "Cuaterna 2do.Pase" = true ∧
    es_apuesta_excluida "Doble Plus" = false ∧
    es_apuesta_excluida "Final" = true ∧
    es_apuesta_excluida "Cuaterna Final 1er.Pase" = false := by
  refine ⟨?_, ?_, ?_, ?_, by decide, by decide, by decide, by decide⟩
  · intro n h
    rw [es_apuesta_excluida_eq, h]
    simp
  · intro n h1 h2
    have he : n.toList.isEmpty = false := by
      cases hl : n.toList with
      | nil => rw [hl] at h2; exact absurd h2 (by decide)
      | cons c t => rfl
    rw [es_apuesta_excluida_eq, he, h1, h2]
    rfl
  · intro n h1 h2 h3
    have he : n.toList.isEmpty = false := by
      cases hl : n.toList with
      | nil => rw [hl] at h3; exact absurd h3 (by decide)
      | cons c t => rfl
    rw [es_apuesta_excluida_eq, he, h1, h2, h3]
    rfl
  · intro n h1 h2 h3
    rw [es_apuesta_excluida_eq, h2, h3]
    simp

/-- C3 witness: concrete uses of the amended rules. -/
theorem c3_witness :
    es_apuesta_excluida "Doble Final Plus" = false ∧
    es_apuesta_excluida "Triplo 3er.Pase" = true := by
  constructor
  · exact c3_es_apuesta_excluida.1 "Doble Final Plus" (by decide)
  · exact c3_es_apuesta_excluida.2.1 "Triplo 3er.Pase" (by decide) (by decide)

/-! ### `_expandir_race_map` — the race-range expander -/

/-- Inclusive integer range, `list(range(a, b + 1))`. -/
def rangoInt (a b : Int) : List Int :=
  (List.range (b + 1 - a).toNat).map (fun k => a + (k : Int))

/-- Attempt `int(l)` and yield a singleton, else nothing. -/
def enteroOVacio (l : List Char) : List Int :=
  match pyInt l with
  | some n => [n]
  | none => []

/-- `_expandir_race_map` (lines 662-723). -/
def expandir_race_map (race_map : String) : List Int :=
  let rm := pyUpper (stripPy race_map.toList)
  if rm = "ALL".toList then (List.range 15).map (fun k => (k : Int) + 1)
  else if rm.contains ',' then
    bindA (splitOnChar ',' rm) (fun parteRaw =>
      let parte := stripPy parteRaw
      if parte.isEmpty then []
      else if parte.contains '-' then
        match splitOnChar '-' parte with
        | [a, b] =>
          match pyInt a, pyInt b with
          | some i, some f => rangoInt i f
          | _, _ => []
        | _ => []
      else enteroOVacio parte)
  else if rm.contains '-' then
    match splitOnChar '-' rm with
    | [a, b] =>
      match pyInt a, pyInt b with
      | some i, some f => rangoInt i f
      | _, _ => enteroOVacio rm
    | _ => enteroOVacio rm
  else enteroOVacio rm

/-- One comma-separated segment as the specification words it: a two-part
hyphen segment `X-Y` contributes the inclusive range, a plain segment its
single integer, and a segment that fails integer parsing is dropped. -/
def segmentoSpec (parteRaw : List Char) : List Int :=
  let parte := stripPy parteRaw
  if parte.isEmpty then []
  else if parte.contains '-' then
    match splitOnChar '-' parte with
    | [a, b] =>
      match pyInt a, pyInt b with
      | some i, some f => rangoInt i f
      | _, _ => []
    | _ => []
  else enteroOVacio parte

/-- The race-range expander as the specification words it: trim and uppercase;
`ALL` is the fixed fallback `1..15` (the expander receives no universe); a
comma list concatenates its segments under the segment rule; a bare
expression is a two-part hyphen range when that parses, otherwise a plain
integer, and a whole bare expression failing integer parsing is dropped. -/
def expandirSpec (race_map : String) : List Int :=
  let rm := pyUpper (stripPy race_map.toList)
  if rm = "ALL".toList then (List.range 15).map (fun k => (k : Int) + 1)
  else if rm.contains ',' then bindA (splitOnChar ',' rm) segmentoSpec
  else if rm.contains '-' then
    match splitOnChar '-' rm with
    | [a, b] =>
      match pyInt a, pyInt b with
      | some i, some f => rangoInt i f
      | _, _ => enteroOVacio rm
    | _ => enteroOVacio rm
  else enteroOVacio rm

/-- Lines 511-515 of `_normalizar_reporte`: the races targeted by one RSM row.
An `ALL` row uses the availability universe when that is non-empty, and the
expander's fixed fallback otherwise. -/
def carreras_para (reales : List Int) (rm : String) : List Int :=
  if pyUpper rm.toList = "ALL".toList then
    (if reales.isEmpty then expandir_race_map rm else reales)
  else expandir_race_map rm

/-- C8: the expander equals its specification on every race-range string;
`ALL` with a non-empty known universe expands to that universe at the caller;
and the documented examples hold. -/
theorem c8_expandir_race_map :
    (∀ s : String, expandir_race_map s = expandirSpec s) ∧
    (∀ u : List Int, u ≠ [] → carreras_para u "ALL" = u) ∧
    expandir_race_map "ALL" = [1, 2, 3, 4, 5, 6, 7, 8, 9, 10, 11, 12, 13, 14, 15] ∧
    expandir_race_map "1-13" = [1, 2, 3, 4, 5, 6, 7, 8, 9, 10, 11, 12, 13] ∧
    expandir_race_map "2,4,6-7,10" = [2, 4, 6, 7, 10] := by
  refine ⟨?_, ?_, by decide, by decide, by decide⟩
  · intro s
    rfl
  · intro u hu
    unfold carreras_para
    rw [if_pos (by decide)]
    cases u with
    | nil => exact absurd rfl hu
    | cons a t => simp

/-- C8 witness: the universe clause at a concrete non-empty universe. -/
theorem c8_witness : carreras_para [1, 2, 3] "ALL" = [1, 2, 3] :=
  c8_expandir_race_map.2.1 [1, 2, 3] (by decide)

/-! ### `comparar_pdf_y_reporte` — the reconciliation engine

The engine diffs two canonical structures `{race: {"caballos": n, "apuestas":
{code: amount-or-None}}}`.  Python's f-string messages are modelled by an
inductive type with one constructor per emission site, so that "a discrepancy
is emitted" becomes list membership. -/

/-- Canonical per-race record: horse count and code → optional amount. -/
structure CarreraInfo where
  caballos : Nat
  apuestas : List (String × Option ℚ)
deriving DecidableEq

/-- A canonical structure: race number → per-race record. -/
abbrev Datos := List (Int × CarreraInfo)

/-- `apuestas_sin_comparar_valor = {"GAN", "SEG", "TER"}` (line 758). -/
def codigosSinValor : List String := ["GAN", "SEG", "TER"]

/-- Exact difference `a - b` computed with kernel-friendly primitives. -/
def subQ (a b : ℚ) : ℚ :=
  mkRat (a.num * (b.den : Int) - b.num * (a.den : Int)) (a.den * b.den)

/-- Absolute value computed with kernel-friendly primitives. -/
def absQ (q : ℚ) : ℚ := mkRat (Int.ofNat q.num.natAbs) q.den

theorem subQ_eq (a b : ℚ) : subQ a b = a - b := (Rat.sub_def' a b).symm

theorem absQ_eq (q : ℚ) : absQ q = |q| := by
  unfold absQ
  rw [Rat.mkRat_eq_divInt, Rat.abs_def]
  rfl

theorem mkRat_cien : (mkRat 1 100 : ℚ) = 1 / 100 := by
  rw [Rat.mkRat_eq_divInt, Rat.divInt_eq_div]
  norm_num

/-- Codepoint-wise `<` on character lists (Python string comparison). -/
def ltChars : List Char → List Char → Bool
  | [], [] => false
  | [], _ :: _ => true
  | _ :: _, [] => false
  | a :: as, b :: bs => if a < b then true else if b < a then false else ltChars as bs

/-- `x ≤ y` for strings, via `ltChars`. -/
def leStr (x y : String) : Bool := !(ltChars y.toList x.toList)

/-- Insertion step for `sorted` on bet-code strings. -/
def insertSortedStr (x : String) : List String → List String
  | [] => [x]
  | y :: t => if leStr x y then x :: y :: t else y :: insertSortedStr x t

/-- Python `sorted` on bet-code strings. -/
def sortStr (l : List String) : List String := l.foldr insertSortedStr []

/-- One constructor per discrepancy-message emission site of
`comparar_pdf_y_reporte` (lines 767-822). -/
inductive Discrepancia where
  | carreraSoloReporte (r : Int)
  | carreraSoloPdf (r : Int)
  | caballosDifieren (r : Int) (cPdf cRep : Nat)
  | apuestasSoloPdf (r : Int) (codigos : List String)
  | apuestasSoloReporte (r : Int) (codigos : List String)
  | valorDiferente (r : Int) (c : String) (vPdf vRep : ℚ)
  | pdfConValorReporteNull (r : Int) (c : String) (vPdf : ℚ)
  | reporteConValorPdfNull (r : Int) (c : String) (vRep : ℚ)
deriving DecidableEq

/-- Lines 802-822: the value comparison for one common code. -/
def compararCodigo (r : Int) (c : String) (vl vr : Option ℚ) : List Discrepancia :=
  if c ∈ codigosSinValor then []
  else
    match vl, vr with
    | some a, some b =>
      if mkRat 1 100 < absQ (subQ a b) then [Discrepancia.valorDiferente r c a b] else []
    | some a, none => [Discrepancia.pdfConValorReporteNull r c a]
    | none, some b => [Discrepancia.reporteConValorPdfNull r c b]
    | none, none => []

/-- Lines 774-781: the horse-count comparison. -/
def difCaballos (r : Int) (il ir : CarreraInfo) : List Discrepancia :=
  if il.caballos ≠ ir.caballos then [Discrepancia.caballosDifieren r il.caballos ir.caballos]
  else []

/-- The set of bet codes of a record (`set(....keys())`). -/
def codigosDe (i : CarreraInfo) : List String := (keysA i.apuestas).dedup

/-- Lines 787-793: codes only on the document side. -/
def difSoloPdf (r : Int) (il ir : CarreraInfo) : List Discrepancia :=
  let solo := (codigosDe il).filter (fun c => decide (c ∉ codigosDe ir))
  if solo ≠ [] then [Discrepancia.apuestasSoloPdf r (sortStr solo)] else []

/-- Lines 795-798: codes only on the report side. -/
def difSoloReporte (r : Int) (il ir : CarreraInfo) : List Discrepancia :=
  let solo := (codigosDe ir).filter (fun c => decide (c ∉ codigosDe il))
  if solo ≠ [] then [Discrepancia.apuestasSoloReporte r (sortStr solo)] else []

/-- Value comparison for one candidate common code, reading both amounts. -/
def difValorCodigo (r : Int) (il ir : CarreraInfo) (c : String) : List Discrepancia :=
  match lookupA il.apuestas c with
  | none => []
  | some vl =>
    match lookupA ir.apuestas c with
    | none => []
    | some vr => compararCodigo r c vl vr

/-- Lines 801-822: the loop over the common codes. -/
def difValores (r : Int) (il ir : CarreraInfo) : List Discrepancia :=
  bindA ((codigosDe il).filter (fun c => decide (c ∈ codigosDe ir))) (difValorCodigo r il ir)

/-- Body of the race loop of `comparar_pdf_y_reporte` (lines 762-822). -/
def compararCarrera (dl dr : Datos) (r : Int) : List Discrepancia :=
  match lookupA dl r with
  | none => [Discrepancia.carreraSoloReporte r]
  | some il =>
    match lookupA dr r with
    | none => [Discrepancia.carreraSoloPdf r]
    | some ir =>
      difCaballos r il ir ++ (difSoloPdf r il ir ++ (difSoloReporte r il ir ++ difValores r il ir))

/-- `comparar_pdf_y_reporte` (lines 757-825) on two canonical structures
(document-side left, report-side right); returns (all-match?, discrepancies). -/
def comparar_pdf_y_reporte (dl dr : Datos) : Bool × List Discrepancia :=
  let todas := sortInt (keysA dl ++ keysA dr).dedup
  let difs := bindA todas (compararCarrera dl dr)
  (difs.isEmpty, difs)

theorem mem_if_singleton {α : Type} {P : Prop} [Decidable P] {a b : α} :
    (a ∈ if P then [b] else []) ↔ P ∧ a = b := by
  by_cases h : P <;> simp [h]

theorem bindA_eq_nil {α β : Type} (l : List α) (f : α → List β)
    (h : ∀ a ∈ l, f a = []) : bindA l f = [] := by
  induction l with
  | nil => rfl
  | cons x t ih => simp [bindA, h x (by simp), ih (fun a ha => h a (by simp [ha]))]

theorem mem_codigosDe_of_lookup {i : CarreraInfo} {c : String} {v : Option ℚ}
    (h : lookupA i.apuestas c = some v) : c ∈ codigosDe i := by
  unfold codigosDe
  rw [List.mem_dedup]
  exact lookupA_eq_some_mem h

theorem no_excede_tol_self (x : ℚ) : ¬ (mkRat 1 100 < absQ (subQ x x)) := by
  rw [subQ_eq, sub_self, absQ_eq, abs_zero, mkRat_cien]
  norm_num

theorem valor_mem_codigo {r' r : Int} {c' c : String} {vl vr : Option ℚ} {a b : ℚ} :
    Discrepancia.valorDiferente r c a b ∈ compararCodigo r' c' vl vr ↔
      r' = r ∧ c' = c ∧ c' ∉ codigosSinValor ∧ vl = some a ∧ vr = some b ∧
        mkRat 1 100 < absQ (subQ a b) := by
  unfold compararCodigo
  by_cases h : c' ∈ codigosSinValor
  · simp [h]
  · rw [if_neg h]
    cases vl with
    | none => cases vr <;> simp [h]
    | some x =>
      cases vr with
      | none => simp [h]
      | some y =>
        by_cases ht : mkRat 1 100 < absQ (subQ x y)
        · simp only [if_pos ht, List.mem_singleton, Discrepancia.valorDiferente.injEq]
          constructor
          · rintro ⟨rfl, rfl, rfl, rfl⟩
            exact ⟨rfl, rfl, h, rfl, rfl, ht⟩
          · rintro ⟨rfl, rfl, -, hx, hy, -⟩
            obtain rfl := Option.some.inj hx
            obtain rfl := Option.some.inj hy
            exact ⟨rfl, rfl, rfl, rfl⟩
        · simp only [if_neg ht, List.not_mem_nil, false_iff, not_and]
          rintro rfl rfl - hx hy
          obtain rfl := Option.some.inj hx
          obtain rfl := Option.some.inj hy
          exact ht

theorem pdfnull_mem_codigo {r' r : Int} {c' c : String} {vl vr : Option ℚ} {a : ℚ} :
    Discrepancia.pdfConValorReporteNull r c a ∈ compararCodigo r' c' vl vr ↔
      r' = r ∧ c' = c ∧ c' ∉ codigosSinValor ∧ vl = some a ∧ vr = none := by
  unfold compararCodigo
  by_cases h : c' ∈ codigosSinValor
  · simp [h]
  · rw [if_neg h]
    cases vl with
    | none => cases vr <;> simp [h]
    | some x =>
      cases vr with
      | none =>
        simp only [List.mem_singleton, Discrepancia.pdfConValorReporteNull.injEq]
        constructor
        · rintro ⟨rfl, rfl, rfl⟩
          exact ⟨rfl, rfl, h, rfl, by trivial⟩
        · rintro ⟨rfl, rfl, -, hx, -⟩
          obtain rfl := Option.some.inj hx
          exact ⟨rfl, rfl, rfl⟩
      | some y =>
        by_cases ht : mkRat 1 100 < absQ (subQ x y) <;> simp [h, ht]

theorem repnull_mem_codigo {r' r : Int} {c' c : String} {vl vr : Option ℚ} {b : ℚ} :
    Discrepancia.reporteConValorPdfNull r c b ∈ compararCodigo r' c' vl vr ↔
      r' = r ∧ c' = c ∧ c' ∉ codigosSinValor ∧ vl = none ∧ vr = some b := by
  unfold compararCodigo
  by_cases h : c' ∈ codigosSinValor
  · simp [h]
  · rw [if_neg h]
    cases vl with
    | none =>
      cases vr with
      | none => simp [h]
      | some y =>
        simp only [List.mem_singleton, Discrepancia.reporteConValorPdfNull.injEq]
        constructor
        · rintro ⟨rfl, rfl, rfl⟩
          exact ⟨rfl, rfl, h, by trivial, rfl⟩
        · rintro ⟨rfl, rfl, -, -, hy⟩
          obtain rfl := Option.some.inj hy
          exact ⟨rfl, rfl, rfl⟩
    | some x =>
      cases vr with
      | none => simp [h]
      | some y =>
        by_cases ht : mkRat 1 100 < absQ (subQ x y) <;> simp [h, ht]

theorem mem_difCaballos {x : Discrepancia} {r : Int} {il ir : CarreraInfo}
    (h : x ∈ difCaballos r il ir) :
    x = Discrepancia.caballosDifieren r il.caballos ir.caballos := by
  unfold difCaballos at h
  exact (mem_if_singleton.mp h).2

theorem mem_difSoloPdf {x : Discrepancia} {r : Int} {il ir : CarreraInfo}
    (h : x ∈ difSoloPdf r il ir) :
    ∃ cs, x = Discrepancia.apuestasSoloPdf r cs := by
  unfold difSoloPdf at h
  exact ⟨_, (mem_if_singleton.mp h).2⟩

theorem mem_difSoloReporte {x : Discrepancia} {r : Int} {il ir : CarreraInfo}
    (h : x ∈ difSoloReporte r il ir) :
    ∃ cs, x = Discrepancia.apuestasSoloReporte r cs := by
  unfold difSoloReporte at h
  exact ⟨_, (mem_if_singleton.mp h).2⟩

theorem valor_mem_difValores {r' r : Int} {il ir : CarreraInfo} {c : String} {a b : ℚ} :
    Discrepancia.valorDiferente r c a b ∈ difValores r' il ir ↔
      r' = r ∧ c ∉ codigosSinValor ∧ lookupA il.apuestas c = some (some a) ∧
        lookupA ir.apuestas c = some (some b) ∧ mkRat 1 100 < absQ (subQ a b) := by
  unfold difValores
  rw [mem_bindA]
  constructor
  · rintro ⟨c', -, hm⟩
    unfold difValorCodigo at hm
    rcases hvl : lookupA il.apuestas c' with _ | vl <;> rw [hvl] at hm
    · simp at hm
    · rcases hvr : lookupA ir.apuestas c' with _ | vr <;> rw [hvr] at hm
      · simp at hm
      · obtain ⟨hr0, rfl, hns, rfl, rfl, ht⟩ := valor_mem_codigo.mp hm
        exact ⟨hr0, hns, hvl, hvr, ht⟩
  · rintro ⟨rfl, hns, hl, hr0, ht⟩
    refine ⟨c, ?_, ?_⟩
    · rw [List.mem_filter]
      exact ⟨mem_codigosDe_of_lookup hl, by simp [mem_codigosDe_of_lookup hr0]⟩
    · unfold difValorCodigo
      rw [hl, hr0]
      exact valor_mem_codigo.mpr ⟨rfl, rfl, hns, rfl, rfl, ht⟩

theorem pdfnull_mem_difValores {r' r : Int} {il ir : CarreraInfo} {c : String} {a : ℚ} :
    Discrepancia.pdfConValorReporteNull r c a ∈ difValores r' il ir ↔
      r' = r ∧ c ∉ codigosSinValor ∧ lookupA il.apuestas c = some (some a) ∧
        lookupA ir.apuestas c = some none := by
  unfold difValores
  rw [mem_bindA]
  constructor
  · rintro ⟨c', -, hm⟩
    unfold difValorCodigo at hm
    rcases hvl : lookupA il.apuestas c' with _ | vl <;> rw [hvl] at hm
    · simp at hm
    · rcases hvr : lookupA ir.apuestas c' with _ | vr <;> rw [hvr] at hm
      · simp at hm
      · obtain ⟨hr0, rfl, hns, rfl, rfl⟩ := pdfnull_mem_codigo.mp hm
        exact ⟨hr0, hns, hvl, hvr⟩
  · rintro ⟨rfl, hns, hl, hr0⟩
    refine ⟨c, ?_, ?_⟩
    · rw [List.mem_filter]
      exact ⟨mem_codigosDe_of_lookup hl, by simp [mem_codigosDe_of_lookup hr0]⟩
    · unfold difValorCodigo
      rw [hl, hr0]
      exact pdfnull_mem_codigo.mpr ⟨rfl, rfl, hns, rfl, rfl⟩

theorem repnull_mem_difValores {r' r : Int} {il ir : CarreraInfo} {c : String} {b : ℚ} :
    Discrepancia.reporteConValorPdfNull r c b ∈ difValores r' il ir ↔
      r' = r ∧ c ∉ codigosSinValor ∧ lookupA il.apuestas c = some none ∧
        lookupA ir.apuestas c = some (some b) := by
  unfold difValores
  rw [mem_bindA]
  constructor
  · rintro ⟨c', -, hm⟩
    unfold difValorCodigo at hm
    rcases hvl : lookupA il.apuestas c' with _ | vl <;> rw [hvl] at hm
    · simp at hm
    · rcases hvr : lookupA ir.apuestas c' with _ | vr <;> rw [hvr] at hm
      · simp at hm
      · obtain ⟨hr0, rfl, hns, rfl, rfl⟩ := repnull_mem_codigo.mp hm
        exact ⟨hr0, hns, hvl, hvr⟩
  · rintro ⟨rfl, hns, hl, hr0⟩
    refine ⟨c, ?_, ?_⟩
    · rw [List.mem_filter]
      exact ⟨mem_codigosDe_of_lookup hl, by simp [mem_codigosDe_of_lookup hr0]⟩
    · unfold difValorCodigo
      rw [hl, hr0]
      exact repnull_mem_codigo.mpr ⟨rfl, rfl, hns, rfl, rfl⟩

theorem valor_mem_compararCarrera {dl dr : Datos} {r' r : Int} {c : String} {a b : ℚ} :
    Discrepancia.valorDiferente r c a b ∈ compararCarrera dl dr r' ↔
      r' = r ∧ c ∉ codigosSinValor ∧
        (∃ il, lookupA dl r' = some il ∧ lookupA il.apuestas c = some (some a)) ∧
        (∃ ir, lookupA dr r' = some ir ∧ lookupA ir.apuestas c = some (some b)) ∧
        mkRat 1 100 < absQ (subQ a b) := by
  unfold compararCarrera
  rcases hl : lookupA dl r' with _ | il
  · simp
  rcases hr : lookupA dr r' with _ | ir
  · simp
  simp only [List.mem_append]
  constructor
  · rintro (h1 | h2 | h3 | h4)
    · exact absurd (mem_difCaballos h1) (by simp)
    · obtain ⟨cs, hx⟩ := mem_difSoloPdf h2
      exact absurd hx (by simp)
    · obtain ⟨cs, hx⟩ := mem_difSoloReporte h3
      exact absurd hx (by simp)
    · obtain ⟨rfl, hns, hva, hvb, ht⟩ := valor_mem_difValores.mp h4
      exact ⟨rfl, hns, ⟨il, rfl, hva⟩, ⟨ir, rfl, hvb⟩, ht⟩
  · rintro ⟨rfl, hns, ⟨il', hil, hva⟩, ⟨ir', hir, hvb⟩, ht⟩
    obtain rfl := Option.some.inj hil
    obtain rfl := Option.some.inj hir
    exact Or.inr (Or.inr (Or.inr (valor_mem_difValores.mpr ⟨rfl, hns, hva, hvb, ht⟩)))

theorem pdfnull_mem_compararCarrera {dl dr : Datos} {r' r : Int} {c : String} {a : ℚ} :
    Discrepancia.pdfConValorReporteNull r c a ∈ compararCarrera dl dr r' ↔
      r' = r ∧ c ∉ codigosSinValor ∧
        (∃ il, lookupA dl r' = some il ∧ lookupA il.apuestas c = some (some a)) ∧
        (∃ ir, lookupA dr r' = some ir ∧ lookupA ir.apuestas c = some none) := by
  unfold compararCarrera
  rcases hl : lookupA dl r' with _ | il
  · simp
  rcases hr : lookupA dr r' with _ | ir
  · simp
  simp only [List.mem_append]
  constructor
  · rintro (h1 | h2 | h3 | h4)
    · exact absurd (mem_difCaballos h1) (by simp)
    · obtain ⟨cs, hx⟩ := mem_difSoloPdf h2
      exact absurd hx (by simp)
    · obtain ⟨cs, hx⟩ := mem_difSoloReporte h3
      exact absurd hx (by simp)
    · obtain ⟨rfl, hns, hva, hvb⟩ := pdfnull_mem_difValores.mp h4
      exact ⟨rfl, hns, ⟨il, rfl, hva⟩, ⟨ir, rfl, hvb⟩⟩
  · rintro ⟨rfl, hns, ⟨il', hil, hva⟩, ⟨ir', hir, hvb⟩⟩
    obtain rfl := Option.some.inj hil
    obtain rfl := Option.some.inj hir
    exact Or.inr (Or.inr (Or.inr (pdfnull_mem_difValores.mpr ⟨rfl, hns, hva, hvb⟩)))

theorem repnull_mem_compararCarrera {dl dr : Datos} {r' r : Int} {c : String} {b : ℚ} :
    Discrepancia.reporteConValorPdfNull r c b ∈ compararCarrera dl dr r' ↔
      r' = r ∧ c ∉ codigosSinValor ∧
        (∃ il, lookupA dl r' = some il ∧ lookupA il.apuestas c = some none) ∧
        (∃ ir, lookupA dr r' = some ir ∧ lookupA ir.apuestas c = some (some b)) := by
  unfold compararCarrera
  rcases hl : lookupA dl r' with _ | il
  · simp
  rcases hr : lookupA dr r' with _ | ir
  · simp
  simp only [List.mem_append]
  constructor
  · rintro (h1 | h2 | h3 | h4)
    · exact absurd (mem_difCaballos h1) (by simp)
    · obtain ⟨cs, hx⟩ := mem_difSoloPdf h2
      exact absurd hx (by simp)
    · obtain ⟨cs, hx⟩ := mem_difSoloReporte h3
      exact absurd hx (by simp)
    · obtain ⟨rfl, hns, hva, hvb⟩ := repnull_mem_difValores.mp h4
      exact ⟨rfl, hns, ⟨il, rfl, hva⟩, ⟨ir, rfl, hvb⟩⟩
  · rintro ⟨rfl, hns, ⟨il', hil, hva⟩, ⟨ir', hir, hvb⟩⟩
    obtain rfl := Option.some.inj hil
    obtain rfl := Option.some.inj hir
    exact Or.inr (Or.inr (Or.inr (repnull_mem_difValores.mpr ⟨rfl, hns, hva, hvb⟩)))

theorem mem_comparar_iff {dl dr : Datos} {x : Discrepancia} :
    x ∈ (comparar_pdf_y_reporte dl dr).2 ↔
      ∃ r0, r0 ∈ keysA dl ++ keysA dr ∧ x ∈ compararCarrera dl dr r0 := by
  show x ∈ bindA (sortInt (keysA dl ++ keysA dr).dedup) (compararCarrera dl dr) ↔ _
  rw [mem_bindA]
  constructor
  · rintro ⟨r0, hr0, hm⟩
    rw [mem_sortInt, List.mem_dedup] at hr0
    exact ⟨r0, hr0, hm⟩
  · rintro ⟨r0, hr0, hm⟩
    refine ⟨r0, ?_, hm⟩
    rw [mem_sortInt, List.mem_dedup]
    exact hr0

theorem valor_mem_comparar {dl dr : Datos} {r : Int} {c : String} {a b : ℚ} :
    Discrepancia.valorDiferente r c a b ∈ (comparar_pdf_y_reporte dl dr).2 ↔
      c ∉ codigosSinValor ∧
        (∃ il, lookupA dl r = some il ∧ lookupA il.apuestas c = some (some a)) ∧
        (∃ ir, lookupA dr r = some ir ∧ lookupA ir.apuestas c = some (some b)) ∧
        mkRat 1 100 < absQ (subQ a b) := by
  rw [mem_comparar_iff]
  constructor
  · rintro ⟨r0, -, hm⟩
    obtain ⟨rfl, h⟩ := valor_mem_compararCarrera.mp hm
    exact h
  · rintro ⟨hns, ⟨il, hil, hva⟩, hrest⟩
    refine ⟨r, List.mem_append.mpr (Or.inl (lookupA_eq_some_mem hil)), ?_⟩
    exact valor_mem_compararCarrera.mpr ⟨rfl, hns, ⟨il, hil, hva⟩, hrest⟩

theorem pdfnull_mem_comparar {dl dr : Datos} {r : Int} {c : String} {a : ℚ} :
    Discrepancia.pdfConValorReporteNull r c a ∈ (comparar_pdf_y_reporte dl dr).2 ↔
      c ∉ codigosSinValor ∧
        (∃ il, lookupA dl r = some il ∧ lookupA il.apuestas c = some (some a)) ∧
        (∃ ir, lookupA dr r = some ir ∧ lookupA ir.apuestas c = some none) := by
  rw [mem_comparar_iff]
  constructor
  · rintro ⟨r0, -, hm⟩
    obtain ⟨rfl, h⟩ := pdfnull_mem_compararCarrera.mp hm
    exact h
  · rintro ⟨hns, ⟨il, hil, hva⟩, hrest⟩
    refine ⟨r, List.mem_append.mpr (Or.inl (lookupA_eq_some_mem hil)), ?_⟩
    exact pdfnull_mem_compararCarrera.mpr ⟨rfl, hns, ⟨il, hil, hva⟩, hrest⟩

theorem repnull_mem_comparar {dl dr : Datos} {r : Int} {c : String} {b : ℚ} :
    Discrepancia.reporteConValorPdfNull r c b ∈ (comparar_pdf_y_reporte dl dr).2 ↔
      c ∉ codigosSinValor ∧
        (∃ il, lookupA dl r = some il ∧ lookupA il.apuestas c = some none) ∧
        (∃ ir, lookupA dr r = some ir ∧ lookupA ir.apuestas c = some (some b)) := by
  rw [mem_comparar_iff]
  constructor
  · rintro ⟨r0, -, hm⟩
    obtain ⟨rfl, h⟩ := repnull_mem_compararCarrera.mp hm
    exact h
  · rintro ⟨hns, ⟨il, hil, hva⟩, hrest⟩
    refine ⟨r, List.mem_append.mpr (Or.inl (lookupA_eq_some_mem hil)), ?_⟩
    exact repnull_mem_compararCarrera.mpr ⟨rfl, hns, ⟨il, hil, hva⟩, hrest⟩

theorem tol_bridge (a b : ℚ) :
    (mkRat 1 100 < absQ (subQ a b)) ↔ (1 : ℚ) / 100 < |a - b| := by
  rw [mkRat_cien, absQ_eq, subQ_eq]

/-- C1: in the reconciliation, GAN/SEG/TER are never amount-compared (no
value-style discrepancy ever mentions them); for any other code common to a
race present on both sides, a value-mismatch discrepancy is emitted iff both
amounts are known and differ by more than 1/100, a one-sided discrepancy is
emitted iff exactly that side's amount is known, hence no discrepancy when
both are unknown; and the verdict is `true` iff the discrepancy list is
empty. -/
theorem c1_comparar_valores :
    (∀ (dl dr : Datos) (r : Int) (c : String) (a b : ℚ), c ∈ codigosSinValor →
      Discrepancia.valorDiferente r c a b ∉ (comparar_pdf_y_reporte dl dr).2 ∧
      Discrepancia.pdfConValorReporteNull r c a ∉ (comparar_pdf_y_reporte dl dr).2 ∧
      Discrepancia.reporteConValorPdfNull r c b ∉ (comparar_pdf_y_reporte dl dr).2) ∧
    (∀ (dl dr : Datos) (r : Int) (il ir : CarreraInfo) (c : String) (vl vr : Option ℚ),
      lookupA dl r = some il → lookupA dr r = some ir →
      lookupA il.apuestas c = some vl → lookupA ir.apuestas c = some vr →
      c ∉ codigosSinValor →
      ((∀ a b : ℚ, Discrepancia.valorDiferente r c a b ∈ (comparar_pdf_y_reporte dl dr).2 ↔
          vl = some a ∧ vr = some b ∧ (1 : ℚ) / 100 < |a - b|) ∧
        (∀ a : ℚ, Discrepancia.pdfConValorReporteNull r c a ∈ (comparar_pdf_y_reporte dl dr).2 ↔
          vl = some a ∧ vr = none) ∧
        (∀ b : ℚ, Discrepancia.reporteConValorPdfNull r c b ∈ (comparar_pdf_y_reporte dl dr).2 ↔
          vl = none ∧ vr = some b))) ∧
    (∀ dl dr : Datos,
      (comparar_pdf_y_reporte dl dr).1 = true ↔ (comparar_pdf_y_reporte dl dr).2 = []) := by
  refine ⟨?_, ?_, ?_⟩
  · intro dl dr r c a b hc
    refine ⟨fun hm => ?_, fun hm => ?_, fun hm => ?_⟩
    · exact absurd hc (valor_mem_comparar.mp hm).1
    · exact absurd hc (pdfnull_mem_comparar.mp hm).1
    · exact absurd hc (repnull_mem_comparar.mp hm).1
  · intro dl dr r il ir c vl vr hil hir hvl hvr hns
    refine ⟨fun a b => ?_, fun a => ?_, fun b => ?_⟩
    · rw [valor_mem_comparar]
      constructor
      · rintro ⟨-, ⟨il', hil', hva⟩, ⟨ir', hir', hvb⟩, ht⟩
        obtain rfl := Option.some.inj (hil.symm.trans hil')
        obtain rfl := Option.some.inj (hvl.symm.trans hva)
        obtain rfl := Option.some.inj (hir.symm.trans hir')
        obtain rfl := Option.some.inj (hvr.symm.trans hvb)
        exact ⟨rfl, rfl, (tol_bridge a b).mp ht⟩
      · rintro ⟨rfl, rfl, ht⟩
        exact ⟨hns, ⟨il, hil, hvl⟩, ⟨ir, hir, hvr⟩, (tol_bridge a b).mpr ht⟩
    · rw [pdfnull_mem_comparar]
      constructor
      · rintro ⟨-, ⟨il', hil', hva⟩, ⟨ir', hir', hvb⟩⟩
        obtain rfl := Option.some.inj (hil.symm.trans hil')
        obtain rfl := Option.some.inj (hvl.symm.trans hva)
        obtain rfl := Option.some.inj (hir.symm.trans hir')
        obtain rfl := Option.some.inj (hvr.symm.trans hvb)
        exact ⟨rfl, rfl⟩
      · rintro ⟨rfl, rfl⟩
        exact ⟨hns, ⟨il, hil, hvl⟩, ⟨ir, hir, hvr⟩⟩
    · rw [repnull_mem_comparar]
      constructor
      · rintro ⟨-, ⟨il', hil', hva⟩, ⟨ir', hir', hvb⟩⟩
        obtain rfl := Option.some.inj (hil.symm.trans hil')
        obtain rfl := Option.some.inj (hvl.symm.trans hva)
        obtain rfl := Option.some.inj (hir.symm.trans hir')
        obtain rfl := Option.some.inj (hvr.symm.trans hvb)
        exact ⟨rfl, rfl⟩
      · rintro ⟨rfl, rfl⟩
        exact ⟨hns, ⟨il, hil, hvl⟩, ⟨ir, hir, hvr⟩⟩
  · intro dl dr
    show (bindA (sortInt (keysA dl ++ keysA dr).dedup) (compararCarrera dl dr)).isEmpty =
        true ↔ _
    rw [List.isEmpty_iff]
    rfl

/-- C1 witness: a concrete pair of one-race structures where EXA carries 1000
on the left and 2000 on the right; the value-mismatch discrepancy is present. -/
theorem c1_witness :
    Discrepancia.valorDiferente 1 "EXA" 1000 2000 ∈
      (comparar_pdf_y_reporte [(1, ⟨5, [("EXA", some 1000)]⟩)]
        [(1, ⟨5, [("EXA", some 2000)]⟩)]).2 := by
  refine ((c1_comparar_valores.2.1 [(1, ⟨5, [("EXA", some 1000)]⟩)]
      [(1, ⟨5, [("EXA", some 2000)]⟩)] 1 ⟨5, [("EXA", some 1000)]⟩ ⟨5, [("EXA", some 2000)]⟩
      "EXA" (some 1000) (some 2000) (by decide) (by decide) (by decide) (by decide)
      (by decide)).1 1000 2000).mpr ⟨rfl, rfl, by norm_num⟩

/-- C9: comparing a canonical structure against itself yields a `true` verdict
and an empty discrepancy list. -/
theorem c9_comparar_reflexivo (d : Datos) : comparar_pdf_y_reporte d d = (true, []) := by
  have h : bindA (sortInt (keysA d ++ keysA d).dedup) (compararCarrera d d) = [] := by
    apply bindA_eq_nil
    intro r hr
    have hrk : r ∈ keysA d := by
      rw [mem_sortInt, List.mem_dedup, List.mem_append] at hr
      tauto
    obtain ⟨il, hil⟩ := Option.isSome_iff_exists.mp ((mem_lookupA_keys d r).mpr hrk)
    unfold compararCarrera
    rw [hil]
    show difCaballos r il il ++
        (difSoloPdf r il il ++ (difSoloReporte r il il ++ difValores r il il)) = []
    have h1 : difCaballos r il il = [] := by simp [difCaballos]
    have hs : (codigosDe il).filter (fun c => decide (c ∉ codigosDe il)) = [] := by
      rw [List.filter_eq_nil_iff]
      intro a ha
      simp [ha]
    have h2 : difSoloPdf r il il = [] := by
      unfold difSoloPdf
      simp [hs]
    have h3 : difSoloReporte r il il = [] := by
      unfold difSoloReporte
      simp [hs]
    have h4 : difValores r il il = [] := by
      apply bindA_eq_nil
      intro c hc
      have hck : c ∈ keysA il.apuestas := by
        have hm := (List.mem_filter.mp hc).1
        unfold codigosDe at hm
        rw [List.mem_dedup] at hm
        exact hm
      obtain ⟨v, hv⟩ :=
        Option.isSome_iff_exists.mp ((mem_lookupA_keys il.apuestas c).mpr hck)
      unfold difValorCodigo
      rw [hv]
      show compararCodigo r c v v = []
      unfold compararCodigo
      by_cases hg : c ∈ codigosSinValor
      · rw [if_pos hg]
      · rw [if_neg hg]
        cases v with
        | none => rfl
        | some x => simp [no_excede_tol_self x]
    rw [h1, h2, h3, h4]
    rfl
  show ((bindA (sortInt (keysA d ++ keysA d).dedup) (compararCarrera d d)).isEmpty,
      bindA (sortInt (keysA d ++ keysA d).dedup) (compararCarrera d d)) = (true, [])
  rw [h]
  rfl

/-! ### `_normalizar_reporte` — the configuration-report normaliser

The regex scans of the availability pass (lines 404-450), the RSM-table pass
(lines 452-523) and the defaults section (lines 525-536) produce row records;
the normaliser below models, faithfully to the source, how those rows are
folded into the canonical structure.  A `FilaCarrera` is one matched race
line with the codes collected from it and its indented continuation lines. -/

/-- One availability-pass race row: race number, horse count (slot plus SCR
markers), and the recognised codes collected for it. -/
structure FilaCarrera where
  num : Int
  caballos : Nat
  codigos : List String
deriving DecidableEq

/-- The `caballos_por_carrera` dict: later rows overwrite (line 423). -/
def caballosDeFilas (filas : List FilaCarrera) : List (Int × Nat) :=
  filas.foldl (fun d f => setA d f.num f.caballos) []

/-- The `apuestas_por_carrera` dict: codes union per race (lines 426-448). -/
def apuestasDeFilas (filas : List FilaCarrera) : List (Int × List String) :=
  filas.foldl (fun d f => setA d f.num (unionA ((lookupA d f.num).getD []) f.codigos)) []

/-- `carreras_reales_reporte` (line 495): the sorted availability races. -/
def carrerasReales (filas : List FilaCarrera) : List Int :=
  sortInt (keysA (caballosDeFilas filas))

/-- `mapeo_rsm` (lines 481-492): `WPS` maps to `None`, the nine combination
codes map to themselves, anything else is absent and `.get` yields `None`. -/
def mapeo_rsm (t : String) : Option String :=
  if t ∈ (["EXA", "TRI", "IMP", "DOB", "TPL", "QTN", "QTP", "CAD", "CUA"] : List String)
  then some t else none

/-- One RSM-table row as matched by `patron_rsm` (line 476), groups stripped. -/
structure FilaRSM where
  raceMap : String
  tipo : String
  valorStr : String
deriving DecidableEq

/-- Lines 517-523: assign one parsed amount to one target race, subject to
the real-races guard. -/
def asignaValor (reales : List Int) (cod : String) (v : ℚ)
    (vals : List (Int × List (String × ℚ))) (carrera : Int) :
    List (Int × List (String × ℚ)) :=
  if ¬ reales.isEmpty ∧ carrera ∉ reales then vals
  else setA vals carrera (setA ((lookupA vals carrera).getD []) cod v)

/-- Lines 497-523: fold the RSM rows into `valores_por_carrera`. -/
def valoresPorCarrera (reales : List Int) (rsm : List FilaRSM) :
    List (Int × List (String × ℚ)) :=
  rsm.foldl (fun vals fila =>
    match parsear_monto_str fila.valorStr with
    | none => vals
    | some v =>
      match mapeo_rsm fila.tipo with
      | none => vals
      | some cod => (carreras_para reales fila.raceMap).foldl (asignaValor reales cod v) vals)
    []

/-- The amount the RSM pass assigned to a race/code pair, if any. -/
def valorRSM (vals : List (Int × List (String × ℚ))) (r : Int) (c : String) : Option ℚ :=
  lookupA ((lookupA vals r).getD []) c

/-- One CARD-DEFAULT-MINIMUMS row as matched by `patron_default` (line 530). -/
structure FilaDefault where
  codigo : String
  valorStr : String
deriving DecidableEq

/-- Lines 526-536: the parsed (and deliberately unused) default minimums. -/
def valoresDefault (defaults : List FilaDefault) : List (String × ℚ) :=
  defaults.foldl (fun d f =>
    match parsear_monto_str f.valorStr with
    | none => d
    | some v => setA d f.codigo v) []

/-- `_normalizar_reporte` (lines 389-558) on the parsed row data: the final
combination step (lines 538-558).  Race iteration order is fixed as sorted
(Python iterates a set there; the claims are order-independent).  The
`defaults` parameter feeds only the unused `valores_default` dict. -/
def normalizar_reporte (filas : List FilaCarrera) (rsm : List FilaRSM)
    (defaults : List FilaDefault) : Datos :=
  let caballos := caballosDeFilas filas
  let apuestas := apuestasDeFilas filas
  let valores := valoresPorCarrera (carrerasReales filas) rsm
  let _defaultsDict := valoresDefault defaults
  let todas := sortInt (keysA caballos ++ keysA apuestas).dedup
  todas.map (fun num =>
    (num,
      { caballos := (lookupA caballos num).getD 0
        apuestas := ((lookupA apuestas num).getD []).map
          (fun cod => (cod, lookupA ((lookupA valores num).getD []) cod)) }))

theorem mem_keysA_setA {α β : Type} [DecidableEq α] {l : List (α × β)} {k k' : α} {v : β} :
    k' ∈ keysA (setA l k v) ↔ k' ∈ keysA l ∨ k' = k := by
  induction l with
  | nil => simp [setA, keysA]
  | cons p t ih =>
    obtain ⟨a, b⟩ := p
    by_cases ha : a = k
    · subst ha; simp [setA, keysA]; tauto
    · simp [setA, keysA, ha] at *
      tauto

theorem mem_unionA {α : Type} [DecidableEq α] (old new : List α) (c : α) :
    c ∈ unionA old new ↔ c ∈ old ∨ c ∈ new := by
  unfold unionA
  induction new generalizing old with
  | nil => simp
  | cons x t ih =>
    simp only [List.foldl_cons]
    by_cases hx : x ∈ old
    · rw [if_pos hx, ih]
      constructor
      · rintro (h | h)
        · exact Or.inl h
        · exact Or.inr (by simp [h])
      · rintro (h | h)
        · exact Or.inl h
        · rcases List.mem_cons.mp h with rfl | h'
          · exact Or.inl hx
          · exact Or.inr h'
    · rw [if_neg hx, ih]
      simp only [List.mem_append, List.mem_singleton, List.mem_cons]
      tauto

theorem mem_keys_caballosDeFilas_aux (filas : List FilaCarrera)
    (acc : List (Int × Nat)) (r : Int) :
    r ∈ keysA (filas.foldl (fun d f => setA d f.num f.caballos) acc) ↔
      r ∈ keysA acc ∨ ∃ f ∈ filas, f.num = r := by
  induction filas generalizing acc with
  | nil => simp
  | cons f t ih =>
    simp only [List.foldl_cons]
    rw [ih, mem_keysA_setA]
    constructor
    · rintro ((h | h) | h)
      · exact Or.inl h
      · exact Or.inr ⟨f, by simp, h.symm⟩
      · obtain ⟨g, hg, hgr⟩ := h
        exact Or.inr ⟨g, by simp [hg], hgr⟩
    · rintro (h | ⟨g, hg, hgr⟩)
      · exact Or.inl (Or.inl h)
      · rcases List.mem_cons.mp hg with rfl | hg'
        · exact Or.inl (Or.inr hgr.symm)
        · exact Or.inr ⟨g, hg', hgr⟩

theorem mem_keys_apuestasDeFilas_aux (filas : List FilaCarrera)
    (acc : List (Int × List String)) (r : Int) :
    r ∈ keysA (filas.foldl
        (fun d f => setA d f.num (unionA ((lookupA d f.num).getD []) f.codigos)) acc) ↔
      r ∈ keysA acc ∨ ∃ f ∈ filas, f.num = r := by
  induction filas generalizing acc with
  | nil => simp
  | cons f t ih =>
    simp only [List.foldl_cons]
    rw [ih, mem_keysA_setA]
    constructor
    · rintro ((h | h) | h)
      · exact Or.inl h
      · exact Or.inr ⟨f, by simp, h.symm⟩
      · obtain ⟨g, hg, hgr⟩ := h
        exact Or.inr ⟨g, by simp [hg], hgr⟩
    · rintro (h | ⟨g, hg, hgr⟩)
      · exact Or.inl (Or.inl h)
      · rcases List.mem_cons.mp hg with rfl | hg'
        · exact Or.inl (Or.inr hgr.symm)
        · exact Or.inr ⟨g, hg', hgr⟩

theorem lookup_apuestasDeFilas_aux (filas : List FilaCarrera)
    (acc : List (Int × List String)) (r : Int) (c : String) :
    (c ∈ (lookupA (filas.foldl
        (fun d f => setA d f.num (unionA ((lookupA d f.num).getD []) f.codigos)) acc) r).getD
          []) ↔
      c ∈ (lookupA acc r).getD [] ∨ ∃ f ∈ filas, f.num = r ∧ c ∈ f.codigos := by
  induction filas generalizing acc with
  | nil => simp
  | cons f t ih =>
    simp only [List.foldl_cons]
    rw [ih]
    by_cases hr : r = f.num
    · subst hr
      rw [lookupA_setA, if_pos rfl]
      simp only [Option.getD_some]
      rw [mem_unionA]
      constructor
      · rintro ((h | h) | h)
        · exact Or.inl h
        · exact Or.inr ⟨f, by simp, rfl, h⟩
        · obtain ⟨g, hg, hgr, hgc⟩ := h
          exact Or.inr ⟨g, by simp [hg], hgr, hgc⟩
      · rintro (h | ⟨g, hg, hgr, hgc⟩)
        · exact Or.inl (Or.inl h)
        · rcases List.mem_cons.mp hg with rfl | hg'
          · exact Or.inl (Or.inr hgc)
          · exact Or.inr ⟨g, hg', hgr, hgc⟩
    · rw [lookupA_setA, if_neg hr]
      constructor
      · rintro (h | h)
        · exact Or.inl h
        · obtain ⟨g, hg, hgr, hgc⟩ := h
          exact Or.inr ⟨g, by simp [hg], hgr, hgc⟩
      · rintro (h | ⟨g, hg, hgr, hgc⟩)
        · exact Or.inl h
        · rcases List.mem_cons.mp hg with rfl | hg'
          · exact absurd hgr.symm hr
          · exact Or.inr ⟨g, hg', hgr, hgc⟩

theorem lookupA_map_pair {α β : Type} [DecidableEq α] (l : List α) (g : α → β) (r : α) :
    lookupA (l.map (fun n => (n, g n))) r = if r ∈ l then some (g r) else none := by
  induction l with
  | nil => simp [lookupA]
  | cons x t ih =>
    by_cases hx : x = r
    · subst hx
      simp [lookupA]
    · simp only [List.map_cons, lookupA, if_neg hx, ih, List.mem_cons]
      by_cases hr : r ∈ t
      · simp [hr, Ne.symm hx]
      · simp [hr, Ne.symm hx]

theorem keysA_map_pair {α β : Type} (l : List α) (g : α → β) :
    keysA (l.map (fun n => (n, g n))) = l := by
  induction l with
  | nil => rfl
  | cons x t ih => simp [keysA, List.map_map] at *; exact ih

theorem lookup_asigna_fuera {reales : List Int} (hne : ¬ reales.isEmpty)
    (cod : String) (v : ℚ) (cs : List Int)
    (vals : List (Int × List (String × ℚ))) {r : Int} (hr : r ∉ reales)
    (h : lookupA vals r = none) : lookupA (cs.foldl (asignaValor reales cod v) vals) r = none := by
  induction cs generalizing vals with
  | nil => exact h
  | cons x t ih =>
    simp only [List.foldl_cons]
    apply ih
    unfold asignaValor
    by_cases hx : x ∈ reales
    · rw [if_neg (by simp [hx])]
      rw [lookupA_setA, if_neg (fun hxx : r = x => hr (hxx ▸ hx))]
      exact h
    · rw [if_pos ⟨hne, hx⟩]
      exact h

theorem valores_fuera_none {reales : List Int} (hne : ¬ reales.isEmpty)
    (rsm : List FilaRSM) {r : Int} (hr : r ∉ reales) :
    lookupA (valoresPorCarrera reales rsm) r = none := by
  unfold valoresPorCarrera
  suffices h : ∀ vals, lookupA vals r = none →
      lookupA (rsm.foldl (fun vals fila =>
        match parsear_monto_str fila.valorStr with
        | none => vals
        | some v =>
          match mapeo_rsm fila.tipo with
          | none => vals
          | some cod =>
            (carreras_para reales fila.raceMap).foldl (asignaValor reales cod v) vals) vals) r =
        none by
    exact h [] rfl
  intro vals h0
  induction rsm generalizing vals with
  | nil => exact h0
  | cons fila t ih =>
    simp only [List.foldl_cons]
    apply ih
    rcases parsear_monto_str fila.valorStr with _ | v
    · exact h0
    · rcases mapeo_rsm fila.tipo with _ | cod
      · exact h0
      · exact lookup_asigna_fuera hne cod v _ vals hr h0

/-- C4: every race in the normalised report comes from the availability pass;
with a non-empty availability universe the RSM pass assigns no amount to any
race outside it (so an `ALL` row is bounded by the discovered races, not by a
1..15 default); and the `{1,2}`-plus-`ALL` report yields exactly races 1, 2. -/
theorem c4_normalizar_all_acotado :
    (∀ (filas : List FilaCarrera) (rsm : List FilaRSM) (defaults : List FilaDefault) (r : Int),
      r ∈ keysA (normalizar_reporte filas rsm defaults) ↔ ∃ f ∈ filas, f.num = r) ∧
    (∀ (reales : List Int) (rsm : List FilaRSM) (r : Int) (c : String) (v : ℚ),
      ¬ reales.isEmpty → valorRSM (valoresPorCarrera reales rsm) r c = some v →
      r ∈ reales) ∧
    keysA (normalizar_reporte [⟨1, 8, ["GAN", "EXA"]⟩, ⟨2, 10, ["EXA"]⟩]
      [⟨"ALL", "EXA", "1.000,00"⟩] []) = [1, 2] := by
  refine ⟨?_, ?_, by decide⟩
  · intro filas rsm defaults r
    unfold normalizar_reporte
    rw [keysA_map_pair, mem_sortInt, List.mem_dedup, List.mem_append]
    unfold caballosDeFilas apuestasDeFilas
    rw [mem_keys_caballosDeFilas_aux, mem_keys_apuestasDeFilas_aux]
    simp [keysA]
  · intro reales rsm r c v hne hv
    by_contra hr
    unfold valorRSM at hv
    rw [valores_fuera_none hne rsm hr] at hv
    simp [lookupA] at hv

/-- C4 witness: in the concrete `{1,2}`-plus-`ALL` report the RSM amount for
race 1 exists, so race 1 belongs to the availability universe. -/
theorem c4_witness :
    (1 : Int) ∈ carrerasReales [⟨1, 8, ["GAN", "EXA"]⟩, ⟨2, 10, ["EXA"]⟩] :=
  c4_normalizar_all_acotado.2.1 (carrerasReales [⟨1, 8, ["GAN", "EXA"]⟩, ⟨2, 10, ["EXA"]⟩])
    [⟨"ALL", "EXA", "1.000,00"⟩] 1 "EXA" 1000 (by decide) (by decide)

/-- C5: in the normalised report, each race's bet-code set is exactly the
union of the codes collected by the availability pass for that race; each
code's amount is the RSM-pass value for that race and code when one exists
and `None` otherwise; and the CARD DEFAULT MINIMUMS rows never influence the
result. -/
theorem c5_normalizar_codigos :
    (∀ (filas : List FilaCarrera) (rsm : List FilaRSM) (defaults : List FilaDefault)
        (r : Int) (info : CarreraInfo),
      lookupA (normalizar_reporte filas rsm defaults) r = some info →
      ((∀ c : String, c ∈ keysA info.apuestas ↔ ∃ f ∈ filas, f.num = r ∧ c ∈ f.codigos) ∧
        (∀ c : String, c ∈ keysA info.apuestas →
          lookupA info.apuestas c =
            some (valorRSM (valoresPorCarrera (carrerasReales filas) rsm) r c)))) ∧
    (∀ (filas : List FilaCarrera) (rsm : List FilaRSM) (d1 d2 : List FilaDefault),
      normalizar_reporte filas rsm d1 = normalizar_reporte filas rsm d2) := by
  constructor
  · intro filas rsm defaults r info hinfo
    unfold normalizar_reporte at hinfo
    rw [lookupA_map_pair] at hinfo
    by_cases hr : r ∈ sortInt (keysA (caballosDeFilas filas) ++
        keysA (apuestasDeFilas filas)).dedup
    · rw [if_pos hr] at hinfo
      obtain rfl := Option.some.inj hinfo.symm
      constructor
      · intro c
        show c ∈ keysA (((lookupA (apuestasDeFilas filas) r).getD []).map
          (fun cod => (cod, _))) ↔ _
        rw [keysA_map_pair]
        unfold apuestasDeFilas
        rw [lookup_apuestasDeFilas_aux]
        simp [lookupA]
      · intro c hc
        show lookupA (((lookupA (apuestasDeFilas filas) r).getD []).map
          (fun cod => (cod, lookupA _ cod))) c = _
        rw [lookupA_map_pair]
        rw [keysA_map_pair] at hc
        rw [if_pos hc]
        rfl
    · rw [if_neg hr] at hinfo
      exact absurd hinfo (by simp)
  · intro filas rsm d1 d2
    rfl

/-- C5 witness: a one-race report with a direct RSM row; the recorded EXA
amount equals the RSM-pass value. -/
theorem c5_witness :
    lookupA (CarreraInfo.apuestas ⟨8, [("EXA", some 1000)]⟩) "EXA" =
      some (valorRSM (valoresPorCarrera (carrerasReales [⟨1, 8, ["EXA"]⟩])
        [⟨"1", "EXA", "1000"⟩]) 1 "EXA") :=
  ((c5_normalizar_codigos.1 [⟨1, 8, ["EXA"]⟩] [⟨"1", "EXA", "1000"⟩] [] 1
    ⟨8, [("EXA", some 1000)]⟩ (by decide)).2) "EXA" (by decide)

/-! ### `comparar_palermo` — the single-occurrence completion rule

Lines 1041-1062: for the configured codes `{EXA, TRI}`, a code contributed by
exactly one extracted line for the selected date is treated as a blanket rate
and copied to every race of the report-derived structure that does not carry
it already.  The summary and per-race structures are those produced by
`_leer_palermo_desde_pdf`. -/

/-- Per-date summary entry for one code (`resumen_por_fecha[f][codigo]`): how
many lines contributed it, the last amount seen, and the races it touched.
The stored `valor` is never `None` in the source (the parse guard at line 969
drops unparseable rows), so it is a plain amount here. -/
structure ResumenCodigo where
  conteoLineas : Nat
  valor : ℚ
  carreras : List Int
deriving DecidableEq

/-- Amount recorded for code `cod` at race `r` in a per-race bet map. -/
def montoPalermo (ap : List (Int × List (String × ℚ))) (r : Int) (cod : String) : Option ℚ :=
  lookupA ((lookupA ap r).getD []) cod

/-- Lines 1057-1062, one race: ensure the race key exists, then write the
amount only if the code is not already present. -/
def completaPaso (cod : String) (v : ℚ) (ap : List (Int × List (String × ℚ)))
    (carrera : Int) : List (Int × List (String × ℚ)) :=
  let ap1 := if carrera ∈ keysA ap then ap else setA ap carrera []
  let cur := (lookupA ap1 carrera).getD []
  if cod ∈ keysA cur then ap1 else setA ap1 carrera (cur ++ [(cod, v)])

/-- Lines 1057-1062: the loop over the report races. -/
def completaCodigo (cod : String) (v : ℚ) (ap : List (Int × List (String × ℚ)))
    (ks : List Int) : List (Int × List (String × ℚ)) :=
  ks.foldl (completaPaso cod v) ap

/-- Lines 1048-1062, one code: consult the summary and complete when the code
was contributed by exactly one line. -/
def completaSiUnica (resumen : List (String × ResumenCodigo)) (ks : List Int)
    (ap : List (Int × List (String × ℚ))) (cod : String) :
    List (Int × List (String × ℚ)) :=
  match lookupA resumen cod with
  | none => ap
  | some info =>
    if info.conteoLineas ≠ 1 then ap else completaCodigo cod info.valor ap ks

/-- The completion rule of `comparar_palermo` (lines 1045-1062), over the
fixed code set `codigos_all_si_unica = {EXA, TRI}` (the two codes touch
disjoint keys, so the Python set-iteration order is immaterial). -/
def completar_palermo (resumen : List (String × ResumenCodigo))
    (ap : List (Int × List (String × ℚ))) (ks : List Int) :
    List (Int × List (String × ℚ)) :=
  (["EXA", "TRI"] : List String).foldl (completaSiUnica resumen ks) ap

theorem lookupA_append_single {α β : Type} [DecidableEq α] (l : List (α × β)) (k : α)
    (v : β) (c : α) :
    lookupA (l ++ [(k, v)]) c =
      match lookupA l c with
      | some w => some w
      | none => if c = k then some v else none := by
  induction l with
  | nil =>
    simp only [List.nil_append, lookupA]
    by_cases h : k = c
    · simp [h]
    · simp [h, Ne.symm h]
  | cons p t ih =>
    obtain ⟨a, b⟩ := p
    by_cases ha : a = c
    · simp [lookupA, ha]
    · simp [lookupA, ha, ih]

theorem montoPalermo_mk_clave (ap : List (Int × List (String × ℚ))) (carrera r : Int)
    (c' : String) :
    montoPalermo (if carrera ∈ keysA ap then ap else setA ap carrera []) r c' =
      montoPalermo ap r c' := by
  by_cases hk : carrera ∈ keysA ap
  · rw [if_pos hk]
  · rw [if_neg hk]
    unfold montoPalermo
    rw [lookupA_setA]
    by_cases hr : r = carrera
    · subst hr
      rw [if_pos rfl]
      have hnone : lookupA ap r = none := by
        cases h : lookupA ap r with
        | none => rfl
        | some w => exact absurd (lookupA_eq_some_mem h) hk
      rw [hnone]
      rfl
    · rw [if_neg hr]

theorem montoPalermo_setA (ap : List (Int × List (String × ℚ))) (k r : Int)
    (L : List (String × ℚ)) (c' : String) :
    montoPalermo (setA ap k L) r c' =
      if r = k then lookupA L c' else montoPalermo ap r c' := by
  unfold montoPalermo
  rw [lookupA_setA]
  by_cases hr : r = k
  · rw [if_pos hr, if_pos hr]
    rfl
  · rw [if_neg hr, if_neg hr]

theorem montoPalermo_completaPaso (cod : String) (v : ℚ)
    (ap : List (Int × List (String × ℚ))) (carrera r : Int) (c' : String) :
    montoPalermo (completaPaso cod v ap carrera) r c' =
      if r = carrera ∧ c' = cod ∧ montoPalermo ap carrera cod = none then some v
      else montoPalermo ap r c' := by
  unfold completaPaso
  simp only []
  set A := if carrera ∈ keysA ap then ap else setA ap carrera [] with hA
  have hmono : ∀ (r0 : Int) (c0 : String), montoPalermo A r0 c0 = montoPalermo ap r0 c0 := by
    intro r0 c0
    rw [hA]
    exact montoPalermo_mk_clave ap carrera r0 c0
  set cur := (lookupA A carrera).getD [] with hcurdef
  have hcurm : ∀ c0 : String, lookupA cur c0 = montoPalermo ap carrera c0 := by
    intro c0
    rw [hcurdef]
    exact hmono carrera c0
  by_cases hc : cod ∈ keysA cur
  · rw [if_pos hc]
    have hsome : montoPalermo ap carrera cod ≠ none := by
      rw [← hcurm cod]
      intro hcon
      have hms := (mem_lookupA_keys cur cod).mpr hc
      rw [hcon] at hms
      exact absurd hms (by simp)
    rw [if_neg (fun hcon => hsome hcon.2.2)]
    exact hmono r c'
  · rw [if_neg hc]
    have hnone : montoPalermo ap carrera cod = none := by
      rw [← hcurm cod]
      cases h : lookupA cur cod with
      | none => rfl
      | some w => exact absurd (lookupA_eq_some_mem h) hc
    rw [montoPalermo_setA, lookupA_append_single]
    by_cases hr : r = carrera
    · rw [if_pos hr]
      rw [hcurm c']
      by_cases hcc : c' = cod
      · rw [if_pos (show r = carrera ∧ c' = cod ∧ montoPalermo ap carrera cod = none from
          ⟨hr, hcc, hnone⟩)]
        have hcn : montoPalermo ap carrera c' = none := by rw [hcc]; exact hnone
        rw [hcn]
        simp [hcc]
      · rw [if_neg (show ¬ (r = carrera ∧ c' = cod ∧ montoPalermo ap carrera cod = none) from
          fun hcon => hcc hcon.2.1)]
        rw [hr]
        cases hm : montoPalermo ap carrera c' with
        | none => simp [hcc]
        | some w => rfl
    · rw [if_neg hr, if_neg (fun hcon => hr hcon.1)]
      exact hmono r c'

theorem montoPalermo_completaCodigo (cod : String) (v : ℚ) (ks : List Int)
    (ap : List (Int × List (String × ℚ))) (r : Int) (c' : String) :
    montoPalermo (completaCodigo cod v ap ks) r c' =
      if r ∈ ks ∧ c' = cod ∧ montoPalermo ap r cod = none then some v
      else montoPalermo ap r c' := by
  induction ks generalizing ap with
  | nil => simp [completaCodigo]
  | cons k t ih =>
    show montoPalermo (completaCodigo cod v (completaPaso cod v ap k) t) r c' = _
    rw [ih, montoPalermo_completaPaso, montoPalermo_completaPaso]
    by_cases h1 : r = k <;> by_cases h2 : c' = cod <;>
      by_cases h3 : montoPalermo ap r cod = none <;> by_cases h4 : r ∈ t <;>
      by_cases h5 : montoPalermo ap k cod = none <;>
      simp_all [List.mem_cons]

theorem monto_completaSiUnica_otro (resumen : List (String × ResumenCodigo))
    (ks : List Int) (ap : List (Int × List (String × ℚ))) (cod : String) (r : Int)
    {c' : String} (hne : c' ≠ cod) :
    montoPalermo (completaSiUnica resumen ks ap cod) r c' = montoPalermo ap r c' := by
  unfold completaSiUnica
  cases lookupA resumen cod with
  | none => rfl
  | some info =>
    show montoPalermo (if info.conteoLineas ≠ 1 then ap else completaCodigo cod info.valor ap ks)
        r c' = montoPalermo ap r c'
    by_cases h : info.conteoLineas ≠ 1
    · rw [if_pos h]
    · rw [if_neg h, montoPalermo_completaCodigo]
      rw [if_neg (show ¬ (r ∈ ks ∧ c' = cod ∧ montoPalermo ap r cod = none) from
        fun hcon => hne hcon.2.1)]

/-- C6: for each code in the completion set `{EXA, TRI}`: a code whose
summary shows exactly one contributing line is propagated to every race of
the report-derived structure that does not already carry it (races already
carrying it keep their amount, races outside the report are untouched), and
a code contributed by zero lines, or by two or more lines, is never
propagated to any race. -/
theorem c6_completar_palermo :
    (∀ (resumen : List (String × ResumenCodigo)) (ap : List (Int × List (String × ℚ)))
        (ks : List Int) (cod : String) (info : ResumenCodigo),
      cod ∈ (["EXA", "TRI"] : List String) → lookupA resumen cod = some info →
      info.conteoLineas = 1 →
      ((∀ r ∈ ks, montoPalermo (completar_palermo resumen ap ks) r cod =
          some ((montoPalermo ap r cod).getD info.valor)) ∧
        (∀ r, r ∉ ks → montoPalermo (completar_palermo resumen ap ks) r cod =
          montoPalermo ap r cod))) ∧
    (∀ (resumen : List (String × ResumenCodigo)) (ap : List (Int × List (String × ℚ)))
        (ks : List Int) (cod : String) (info : ResumenCodigo),
      cod ∈ (["EXA", "TRI"] : List String) → lookupA resumen cod = some info →
      info.conteoLineas ≠ 1 →
      ∀ r : Int, montoPalermo (completar_palermo resumen ap ks) r cod =
        montoPalermo ap r cod) ∧
    (∀ (resumen : List (String × ResumenCodigo)) (ap : List (Int × List (String × ℚ)))
        (ks : List Int) (cod : String),
      cod ∈ (["EXA", "TRI"] : List String) → lookupA resumen cod = none →
      ∀ r : Int, montoPalermo (completar_palermo resumen ap ks) r cod =
        montoPalermo ap r cod) := by
  have hchar : ∀ resumen ks ap cod r, montoPalermo (completaSiUnica resumen ks ap cod) r cod =
      match lookupA resumen cod with
      | none => montoPalermo ap r cod
      | some info =>
        if info.conteoLineas = 1 ∧ r ∈ ks ∧ montoPalermo ap r cod = none
        then some info.valor else montoPalermo ap r cod := by
    intro resumen ks ap cod r
    unfold completaSiUnica
    cases lookupA resumen cod with
    | none => rfl
    | some info =>
      show montoPalermo (if info.conteoLineas ≠ 1 then ap else completaCodigo cod info.valor ap ks)
          r cod =
        if info.conteoLineas = 1 ∧ r ∈ ks ∧ montoPalermo ap r cod = none then some info.valor
        else montoPalermo ap r cod
      by_cases h : info.conteoLineas ≠ 1
      · rw [if_pos h]
        rw [if_neg (show ¬ (info.conteoLineas = 1 ∧ r ∈ ks ∧ montoPalermo ap r cod = none) from
          fun hcon => h hcon.1)]
      · rw [if_neg h, montoPalermo_completaCodigo]
        push_neg at h
        by_cases h2 : r ∈ ks ∧ montoPalermo ap r cod = none
        · rw [if_pos (show r ∈ ks ∧ cod = cod ∧ montoPalermo ap r cod = none from
            ⟨h2.1, rfl, h2.2⟩)]
          rw [if_pos (show info.conteoLineas = 1 ∧ r ∈ ks ∧ montoPalermo ap r cod = none from
            ⟨h, h2.1, h2.2⟩)]
        · rw [if_neg (show ¬ (r ∈ ks ∧ cod = cod ∧ montoPalermo ap r cod = none) from
            fun hcon => h2 ⟨hcon.1, hcon.2.2⟩)]
          rw [if_neg (show ¬ (info.conteoLineas = 1 ∧ r ∈ ks ∧ montoPalermo ap r cod = none) from
            fun hcon => h2 hcon.2)]
  have hexa : ∀ resumen ks ap r, montoPalermo (completar_palermo resumen ap ks) r "EXA" =
      montoPalermo (completaSiUnica resumen ks ap "EXA") r "EXA" := by
    intro resumen ks ap r
    show montoPalermo (completaSiUnica resumen ks (completaSiUnica resumen ks ap "EXA") "TRI")
      r "EXA" = _
    exact monto_completaSiUnica_otro resumen ks _ "TRI" r (by decide)
  have htri : ∀ resumen ks ap r, montoPalermo (completar_palermo resumen ap ks) r "TRI" =
      montoPalermo (completaSiUnica resumen ks ap "TRI") r "TRI" := by
    intro resumen ks ap r
    show montoPalermo (completaSiUnica resumen ks (completaSiUnica resumen ks ap "EXA") "TRI")
      r "TRI" = _
    rw [hchar, hchar]
    rw [monto_completaSiUnica_otro resumen ks ap "EXA" r (by decide)]
  have hmain : ∀ resumen ks ap cod r, cod ∈ (["EXA", "TRI"] : List String) →
      montoPalermo (completar_palermo resumen ap ks) r cod =
        montoPalermo (completaSiUnica resumen ks ap cod) r cod := by
    intro resumen ks ap cod r hcod
    rcases List.mem_cons.mp hcod with rfl | hcod'
    · exact hexa resumen ks ap r
    · rcases List.mem_cons.mp hcod' with rfl | hcon
      · exact htri resumen ks ap r
      · exact absurd hcon (by simp)
  refine ⟨?_, ?_, ?_⟩
  · intro resumen ap ks cod info hcod hinfo hcount
    constructor
    · intro r hr
      rw [hmain resumen ks ap cod r hcod, hchar, hinfo]
      cases hm : montoPalermo ap r cod with
      | none => simp [hcount, hr, hm]
      | some w => simp [hcount, hr, hm]
    · intro r hr
      rw [hmain resumen ks ap cod r hcod, hchar, hinfo]
      show (if info.conteoLineas = 1 ∧ r ∈ ks ∧ montoPalermo ap r cod = none
          then some info.valor else montoPalermo ap r cod) = montoPalermo ap r cod
      rw [if_neg (show ¬ (info.conteoLineas = 1 ∧ r ∈ ks ∧ montoPalermo ap r cod = none) from
        fun hcon => hr hcon.2.1)]
  · intro resumen ap ks cod info hcod hinfo hcount
    intro r
    rw [hmain resumen ks ap cod r hcod, hchar, hinfo]
    show (if info.conteoLineas = 1 ∧ r ∈ ks ∧ montoPalermo ap r cod = none
        then some info.valor else montoPalermo ap r cod) = montoPalermo ap r cod
    rw [if_neg (show ¬ (info.conteoLineas = 1 ∧ r ∈ ks ∧ montoPalermo ap r cod = none) from
      fun hcon => hcount hcon.1)]
  · intro resumen ap ks cod hcod hinfo r
    rw [hmain resumen ks ap cod r hcod, hchar, hinfo]

/-- C6 witness: EXA appears in exactly one line with amount 500; race 1
already carries EXA at 900 and keeps it, race 2 receives 500. -/
theorem c6_witness :
    montoPalermo (completar_palermo [("EXA", ⟨1, 500, [3]⟩)] [(1, [("EXA", 900)])] [1, 2])
        2 "EXA" =
      some ((montoPalermo [(1, [("EXA", 900)])] 2 "EXA").getD 500) :=
  (c6_completar_palermo.1 [("EXA", ⟨1, 500, [3]⟩)] [(1, [("EXA", 900)])] [1, 2] "EXA"
    ⟨1, 500, [3]⟩ (by decide) (by decide) (by decide)).1 2 (by decide)

/-! ### `obtener_caballos_por_carrera` — horse counts from the official document

`_PATRON_CARRERA_PDF` (line 14) locates the race header; the lazy group
`(.+?)` only affects which match is chosen, not whether one exists, so the
header test reduces to: digits, ordinal glyph, dash, then some suffix at
distance at least one starting with a dash followed by the time-of-day tail
(all the other regex pieces are deterministic because their character classes
are disjoint from what follows them).  `patron_caballo` (line 190) is
`^(\d{2})\s+[A-Z]` with `MULTILINE | IGNORECASE`. -/

/-- Time tail `\s*\d{1,2}\s*:\s*\d{2}\s*hs` of the header pattern (the
trailing `\.?` is optional and unconstrained). -/
def colaHora (l : List Char) : Bool :=
  let d1 := (dropSpaces l).span Char.isDigit
  if d1.1.length < 1 ∨ 2 < d1.1.length then false
  else
    match dropSpaces d1.2 with
    | ':' :: l2 =>
      match dropSpaces l2 with
      | a :: b :: l4 =>
        if a.isDigit ∧ b.isDigit then
          match dropSpaces l4 with
          | h1 :: s1 :: _ => (h1 = 'h' ∨ h1 = 'H') ∧ (s1 = 's' ∨ s1 = 'S')
          | _ => false
        else false
      | _ => false
    | _ => false

/-- A dash followed by the time tail. -/
def dashHora (l : List Char) : Bool :=
  match l with
  | c :: r => (c = '-' ∨ c = '–') ∧ colaHora r
  | [] => false

/-- Existence of `(.+?)\s*[-–]` plus time tail: some suffix at distance ≥ 1
starts with the dash-and-time tail (the lazy group absorbs everything before
it, spaces included). -/
def existeColaCarrera : List Char → Bool
  | [] => false
  | _ :: rest => dashHora rest || existeColaCarrera rest

/-- `_PATRON_CARRERA_PDF` attempted at one position: `(\d+)\s*[ªºa]\s*[-–]`
(IGNORECASE makes the glyph class also accept `A`), then the tail existence;
yields `int(group(1))`. -/
def carreraAt (l : List Char) : Option Nat :=
  let d := l.span Char.isDigit
  if d.1.isEmpty then none
  else
    match dropSpaces d.2 with
    | c :: r1 =>
      if c = 'ª' ∨ c = 'º' ∨ c = 'a' ∨ c = 'A' then
        match dropSpaces r1 with
        | d2 :: r2 =>
          if d2 = '-' ∨ d2 = '–' then
            if existeColaCarrera r2 then some (natVal d.1) else none
          else none
        | [] => none
      else none
    | [] => none

/-- `re.search` for the race header: leftmost matching position. -/
def headerRace : List Char → Option Nat
  | [] => none
  | c :: rest =>
    match carreraAt (c :: rest) with
    | some n => some n
    | none => headerRace rest

/-- Suffixes of the page text at position 0 and after each newline (the
`re.MULTILINE` `^` anchors). -/
def iniciosAux : List Char → List (List Char)
  | [] => []
  | '\n' :: rest => rest :: iniciosAux rest
  | _ :: rest => iniciosAux rest

/-- All line-start suffixes of a page. -/
def iniciosDeLinea (l : List Char) : List (List Char) := l :: iniciosAux l

/-- `patron_caballo` at one line start: two digits, at least one whitespace
(which may cross a line break), then a letter of either case (IGNORECASE). -/
def caballoAt (l : List Char) : Option Nat :=
  match l with
  | a :: b :: rest =>
    if a.isDigit ∧ b.isDigit then
      match rest with
      | c :: _ =>
        if esEspacio c then
          match dropSpaces rest with
          | d :: _ => if d.isAlpha then some (natVal [a, b]) else none
          | [] => none
        else none
      | [] => none
    else none
  | _ => none

/-- The horse numbers collected on a page (lines 202-206): tokens in 1..24. -/
def numerosCaballos (texto : String) : List Nat :=
  ((iniciosDeLinea texto.toList).filterMap caballoAt).filter
    (fun n => decide (1 ≤ n ∧ n ≤ 24))

/-- `cantidad` for a page (line 209): maximum token, 0 when none. -/
def caballosEnPagina (texto : String) : Nat :=
  (numerosCaballos texto).foldl max 0

/-- Modelled from the claim's wording, for comparison only: the same horse
token rule but requiring an UPPERCASE letter after the whitespace. -/
def caballoAtSpec (l : List Char) : Option Nat :=
  match l with
  | a :: b :: rest =>
    if a.isDigit ∧ b.isDigit then
      match rest with
      | c :: _ =>
        if esEspacio c then
          match dropSpaces rest with
          | d :: _ => if d.isUpper then some (natVal [a, b]) else none
          | [] => none
        else none
      | [] => none
    else none
  | _ => none

/-- The claim's per-page horse count: uppercase-only tokens, max or 0. -/
def caballosEnPaginaSpec (texto : String) : Nat :=
  (((iniciosDeLinea texto.toList).filterMap caballoAtSpec).filter
    (fun n => decide (1 ≤ n ∧ n ≤ 24))).foldl max 0

/-- `obtener_caballos_por_carrera` (lines 172-212) over the page texts:
pages without a header contribute nothing, later pages overwrite. -/
def obtener_caballos_por_carrera (pages : List String) : List (Nat × Nat) :=
  pages.foldl (fun acc texto =>
    match headerRace texto.toList with
    | none => acc
    | some n => setA acc n (caballosEnPagina texto)) []

/-- The last page whose header announces race `n`. -/
def ultimaPaginaDe (pages : List String) (n : Nat) : Option String :=
  (pages.filter (fun t => headerRace t.toList == some n)).getLast?

theorem getLast?_cons_eq {α : Type} (a : α) (l : List α) :
    (a :: l).getLast? =
      match l.getLast? with
      | some x => some x
      | none => some a := by
  induction l generalizing a with
  | nil => rfl
  | cons b t ih =>
    rw [List.getLast?_cons_cons, ih b]
    cases t.getLast? <;> rfl

theorem obtener_caballos_aux (pages : List String) (acc : List (Nat × Nat)) (n : Nat) :
    lookupA (pages.foldl (fun acc texto =>
      match headerRace texto.toList with
      | none => acc
      | some m => setA acc m (caballosEnPagina texto)) acc) n =
      match (pages.filter (fun t => headerRace t.toList == some n)).getLast? with
      | some t => some (caballosEnPagina t)
      | none => lookupA acc n := by
  induction pages generalizing acc with
  | nil => simp
  | cons p t ih =>
    simp only [List.foldl_cons, List.filter_cons]
    by_cases hp : headerRace p.toList = some n
    · have hbeq : (headerRace p.toList == some n) = true := by
        rw [hp]; simp
      rw [if_pos hbeq]
      rw [hp]
      rw [ih]
      rw [getLast?_cons_eq]
      cases hlast : (t.filter (fun t0 => headerRace t0.toList == some n)).getLast? with
      | some q => rfl
      | none =>
        show lookupA (setA acc n (caballosEnPagina p)) n = some (caballosEnPagina p)
        rw [lookupA_setA, if_pos rfl]
    · have hbeq : (headerRace p.toList == some n) = false := by
        rw [beq_eq_false_iff_ne]
        exact hp
      rw [if_neg (show ¬ ((headerRace p.toList == some n) = true) from by rw [hbeq]; simp)]
      cases hh : headerRace p.toList with
      | none =>
        rw [ih]
      | some m =>
        have hmn : n ≠ m := fun hcon => hp (by rw [hh, hcon])
        rw [ih]
        cases hlast : (t.filter (fun t0 => headerRace t0.toList == some n)).getLast? with
        | some q => rfl
        | none =>
          show lookupA (setA acc m (caballosEnPagina p)) n = lookupA acc n
          rw [lookupA_setA, if_neg hmn]

theorem foldl_max_aux (l : List Nat) (a : Nat) :
    (∀ m ∈ l, m ≤ l.foldl max a) ∧ a ≤ l.foldl max a ∧
      (l.foldl max a = a ∨ l.foldl max a ∈ l) := by
  induction l generalizing a with
  | nil => exact ⟨by simp, le_refl a, Or.inl rfl⟩
  | cons x t ih =>
    obtain ⟨ih1, ih2, ih3⟩ := ih (max a x)
    refine ⟨?_, ?_, ?_⟩
    · intro m hm
      rcases List.mem_cons.mp hm with rfl | hm'
      · exact le_trans (le_max_right a m) ih2
      · exact ih1 m hm'
    · exact le_trans (le_max_left a x) ih2
    · rcases ih3 with h | h
      · rcases max_choice a x with hc | hc
        · exact Or.inl (by rw [List.foldl_cons, h, hc])
        · exact Or.inr (by rw [List.foldl_cons, h, hc]; simp)
      · exact Or.inr (by simp [h])

/-- C7 counterexample: the horse-token pattern is compiled with IGNORECASE,
so a lowercase letter after the two digits counts.  On a page whose only
token line is `09 zorro` the claim's uppercase-only rule yields 0 while the
code records 9 for race 1. -/
theorem c7_contraejemplo :
    lookupA (obtener_caballos_por_carrera ["1ª - Premio Zorro - 12:30 hs.\n09 zorro"]) 1 =
      some 9 ∧
    caballosEnPaginaSpec "1ª - Premio Zorro - 12:30 hs.\n09 zorro" = 0 := by
  decide

/-- C7 (amended): for every race number, the recorded horse count is the
count computed on the LAST page whose header announces that race (pages
without a header contribute no entry), where a page's count is the maximum
over its two-digit line-start tokens in 1..24 followed by whitespace and a
letter of either case, and 0 when there is none. -/
theorem c7_caballos :
    (∀ (pages : List String) (n : Nat),
      lookupA (obtener_caballos_por_carrera pages) n =
        (ultimaPaginaDe pages n).map caballosEnPagina) ∧
    (∀ texto : String,
      (∀ m ∈ numerosCaballos texto, m ≤ caballosEnPagina texto) ∧
        (caballosEnPagina texto = 0 ∨ caballosEnPagina texto ∈ numerosCaballos texto)) := by
  constructor
  · intro pages n
    unfold obtener_caballos_por_carrera ultimaPaginaDe
    rw [obtener_caballos_aux]
    cases (pages.filter (fun t => headerRace t.toList == some n)).getLast? with
    | some q => rfl
    | none => rfl
  · intro texto
    obtain ⟨h1, -, h3⟩ := foldl_max_aux (numerosCaballos texto) 0
    exact ⟨h1, h3⟩

/-- C7 witness: the amended characterisation applied to a concrete page with
a race-1 header and the horse token `08 ALFA`. -/
theorem c7_witness :
    lookupA (obtener_caballos_por_carrera ["1ª - Premio Zorro - 12:30 hs.\n08 ALFA"]) 1 =
        (ultimaPaginaDe ["1ª - Premio Zorro - 12:30 hs.\n08 ALFA"] 1).map caballosEnPagina ∧
      8 ≤ caballosEnPagina "1ª - Premio Zorro - 12:30 hs.\n08 ALFA" :=
  ⟨c7_caballos.1 ["1ª - Premio Zorro - 12:30 hs.\n08 ALFA"] 1,
   (c7_caballos.2 "1ª - Premio Zorro - 12:30 hs.\n08 ALFA").1 8 (by decide)⟩

/-! ### `_leer_palermo_desde_pdf` — the venue-specific extractor

Pages are processed line by line; the tracked current date is re-initialised
to `None` at the start of every page (line 935).  The regexes `patron_fecha`
(line 895), `patron_fila` (line 900) and the helpers `_extraer_carreras_palermo`
and `_mapear_nombre_apuesta_palermo` are compiled by hand below; `patron_fila`
needs genuine backtracking over the amount run and the optional `.-` suffix,
which is modelled by explicit shrink/alternative tries. -/

/-- Python `texto.split("\n")`. -/
def splitLines (s : String) : List (List Char) := splitOnChar '\n' s.toList

/-- `patron_fecha` (`\b\d{1,2}/\d{1,2}/\d{2,4}\b`) at one position; returns
the matched text and the remaining input. -/
def matchFechaAt (prev : Option Char) (l : List Char) : Option (List Char × List Char) :=
  if noPalabraB prev then
    let d1 := l.span Char.isDigit
    if d1.1.length < 1 ∨ 2 < d1.1.length then none
    else
      match d1.2 with
      | '/' :: r1 =>
        let d2 := r1.span Char.isDigit
        if d2.1.length < 1 ∨ 2 < d2.1.length then none
        else
          match d2.2 with
          | '/' :: r2 =>
            let d3 := r2.span Char.isDigit
            if 2 ≤ d3.1.length ∧ d3.1.length ≤ 4 ∧ bordeTras d3.2 then
              some (d1.1 ++ '/' :: d2.1 ++ '/' :: d3.1, d3.2)
            else none
          | _ => none
      | _ => none
  else none

/-- `patron_fecha.findall`: scan left to right, continuing after each match
(the character before a later position is tracked for the `\b` boundary). -/
def fechasAux (fuel : Nat) (prev : Option Char) (l : List Char) : List (List Char) :=
  match fuel with
  | 0 => []
  | fuel + 1 =>
    match l with
    | [] => []
    | c :: rest =>
      match matchFechaAt prev (c :: rest) with
      | some (m, r) => m :: fechasAux fuel m.getLast? r
      | none => fechasAux fuel (some c) rest

/-- All date tokens of a line, in order. -/
def fechasEnLinea (l : List Char) : List (List Char) := fechasAux l.length none l

/-- Amount character class `[\d.,]`. -/
def esMontoChar (c : Char) : Bool := c.isDigit || c == '.' || c == ','

/-- Group 3 (`\s+(.+)`) after the closing parenthesis: at least one
whitespace, then the greedy remainder; when only whitespace remains the
greedy `\s+` backtracks one character so the group is the final character. -/
def grupoTres (s2 : List Char) : Option (List Char) :=
  match s2 with
  | c :: _ =>
    if esEspacio c then
      let sp := s2.span esEspacio
      match sp.2 with
      | [] =>
        if 2 ≤ s2.length then
          match s2.getLast? with
          | some x => some [x]
          | none => none
        else none
      | r => some r
    else none
  | [] => none

/-- `(?:\.-)?\s*\)\s+(.+)` after a candidate amount: try consuming `.-`
first, else match without it. -/
def cierreFila (suf : List Char) : Option (List Char) :=
  match suf with
  | '.' :: '-' :: r =>
    (match dropSpaces r with
      | ')' :: s2 => grupoTres s2
      | _ => none).orElse
      (fun _ =>
        match dropSpaces suf with
        | ')' :: s2 => grupoTres s2
        | _ => none)
  | _ =>
    match dropSpaces suf with
    | ')' :: s2 => grupoTres s2
    | _ => none

/-- Regex backtracking over the amount: try the full `[\d.,]+` run first and
shrink from the right (`Mrev` is the reversed remaining candidate). -/
def encogeMonto : List Char → List Char → Option (List Char × List Char)
  | [], _ => none
  | c :: mrev, suf =>
    match cierreFila suf with
    | some g => some ((c :: mrev).reverse, g)
    | none => encogeMonto mrev (c :: suf)

/-- Tail of `patron_fila` after the opening parenthesis: `\s*[\$\s]*`
(equivalently, any run of whitespace and dollar signs), then the amount run
with backtracking; returns (amount, group 3). -/
def tailFila (s : List Char) : Option (List Char × List Char) :=
  let s1 := s.dropWhile (fun c => esEspacio c || c == '$')
  let m := s1.span esMontoChar
  if m.1.isEmpty then none else encogeMonto m.1.reverse m.2

/-- `patron_fila.match`: the lazy group 1 takes the fewest characters (at
least one) such that a literal `(` follows and the tail parses; on failure
the parenthesis is absorbed into the group and the scan continues. -/
def filaAux (acc : List Char) : List Char → Option (List Char × List Char × List Char)
  | [] => none
  | c :: rest =>
    if c = '(' ∧ acc ≠ [] then
      match tailFila rest with
      | some p => some (acc.reverse, p.1, p.2)
      | none => filaAux (c :: acc) rest
    else filaAux (c :: acc) rest

/-- `patron_fila.match(linea)` returning (description, amount, race text). -/
def matchFila (l : List Char) : Option (List Char × List Char × List Char) :=
  filaAux [] l

/-- Case-sensitive literal prefix test. -/
def empiezaCon : List Char → List Char → Bool
  | [], _ => true
  | _ :: _, [] => false
  | p :: ps, c :: cs => (p == c) && empiezaCon ps cs

/-- Python `pat in texto` (substring test). -/
def esSubcadena (pat : List Char) : List Char → Bool
  | [] => empiezaCon pat []
  | c :: rest => empiezaCon pat (c :: rest) || esSubcadena pat rest

/-- Python `texto.replace("  ", " ")`: one left-to-right non-overlapping pass. -/
def colapsaDobleEspacio : List Char → List Char
  | ' ' :: ' ' :: rest => ' ' :: colapsaDobleEspacio rest
  | c :: rest => c :: colapsaDobleEspacio rest
  | [] => []

/-- Lowercase a character list. -/
def lowerL (l : List Char) : List Char := l.map Char.toLower

/-- `_mapear_nombre_apuesta_palermo` (lines 828-873): substring table, most
specific first (`cuatrifecta` before `trifecta`). -/
def mapear_nombre_palermo (descripcion : List Char) : Option String :=
  if descripcion.isEmpty then none
  else
    let texto := colapsaDobleEspacio (lowerL (stripPy descripcion))
    if esSubcadena "cuatrifecta".toList texto then some "CUA"
    else if esSubcadena "trifecta".toList texto then some "TRI"
    else if esSubcadena "doble extra".toList texto then some "DOB"
    else if esSubcadena "doble".toList texto then some "DOB"
    else if esSubcadena "5 y 6".toList texto || esSubcadena "5y6".toList texto ||
        esSubcadena "5 & 6".toList texto then some "CAD"
    else if esSubcadena "pick cuatro".toList texto || esSubcadena "pick 4".toList texto then
      some "QTN"
    else if esSubcadena "pick cinco".toList texto || esSubcadena "pick 5".toList texto then
      some "QTP"
    else if esSubcadena "exacta".toList texto then some "EXA"
    else if esSubcadena "triplo".toList texto then some "TPL"
    else if esSubcadena "imperfecta".toList texto then some "IMP"
    else none

/-- `\s*[ªº]?\s+` between a range number and the next keyword. -/
def ordYEspacio (l : List Char) : Option (List Char) :=
  let sp := l.span esEspacio
  match sp.2 with
  | c :: r2 =>
    if c = 'ª' ∨ c = 'º' then
      let sp2 := r2.span esEspacio
      if sp2.1.isEmpty then none else some sp2.2
    else if sp.1.isEmpty then none else some sp.2
  | [] => if sp.1.isEmpty then none else some []

/-- `DESDE\s+LA\s+(\d+)\s*[ªº]?\s+HASTA\s+LA\s+(\d+)\s*[ªº]?` tried at one
position of the uppercased text. -/
def rangoDesdeAt (l : List Char) : Option (Nat × Nat) :=
  if empiezaCon "DESDE".toList l then
    let r1 := (l.drop 5).span esEspacio
    if r1.1.isEmpty then none
    else if empiezaCon "LA".toList r1.2 then
      let r2 := (r1.2.drop 2).span esEspacio
      if r2.1.isEmpty then none
      else
        let d1 := r2.2.span Char.isDigit
        if d1.1.isEmpty then none
        else
          match ordYEspacio d1.2 with
          | none => none
          | some r3 =>
            if empiezaCon "HASTA".toList r3 then
              let r4 := (r3.drop 5).span esEspacio
              if r4.1.isEmpty then none
              else if empiezaCon "LA".toList r4.2 then
                let r5 := (r4.2.drop 2).span esEspacio
                if r5.1.isEmpty then none
                else
                  let d2 := r5.2.span Char.isDigit
                  if d2.1.isEmpty then none else some (natVal d1.1, natVal d2.1)
              else none
            else none
    else none
  else none

/-- `re.search` for the from/to range phrase. -/
def buscaRangoDesde : List Char → Option (Nat × Nat)
  | [] => none
  | c :: rest =>
    match rangoDesdeAt (c :: rest) with
    | some p => some p
    | none => buscaRangoDesde rest

/-- `re.findall(r"(\d+)\s*[ªº]?", s)`: the maximal digit runs, in order. -/
def digitRunsAux (fuel : Nat) (l : List Char) : List Nat :=
  match fuel, l with
  | 0, _ => []
  | _, [] => []
  | fuel + 1, c :: rest =>
    if c.isDigit then
      let sp := rest.span Char.isDigit
      natVal (c :: sp.1) :: digitRunsAux fuel sp.2
    else digitRunsAux fuel rest

/-- All digit runs of a string. -/
def digitRuns (l : List Char) : List Nat := digitRunsAux l.length l

/-- `_extraer_carreras_palermo` (lines 909-930). -/
def extraer_carreras_palermo (carrerasStr : List Char) : List Int :=
  match buscaRangoDesde (pyUpper carrerasStr) with
  | some p =>
    if p.1 ≤ p.2 then rangoInt (p.1 : Int) (p.2 : Int)
    else (digitRuns carrerasStr).map (fun n => (n : Int))
  | none => (digitRuns carrerasStr).map (fun n => (n : Int))

/-- State of `_leer_palermo_desde_pdf`: discovered dates (first-seen order),
per-date per-race code amounts, and the per-date code summaries. -/
structure EstadoPalermo where
  fechas : List (List Char)
  apuestas : List (List Char × List (Int × List (String × ℚ)))
  resumen : List (List Char × List (String × ResumenCodigo))
deriving DecidableEq

/-- The empty initial state. -/
def estadoInicial : EstadoPalermo := ⟨[], [], []⟩

/-- Register one accepted row (lines 978-996): bump the summary counter,
record the amount, and write the amount for each listed race. -/
def registraFila (st : EstadoPalermo) (fecha : List Char) (cod : String) (v : ℚ)
    (carreras : List Int) : EstadoPalermo :=
  let af := (lookupA st.apuestas fecha).getD []
  let rf := (lookupA st.resumen fecha).getD []
  let prev := (lookupA rf cod).getD ⟨0, v, []⟩
  let entry : ResumenCodigo := ⟨prev.conteoLineas + 1, v, unionA prev.carreras carreras⟩
  let af2 := carreras.foldl (fun af carrera =>
    setA af carrera (setA ((lookupA af carrera).getD []) cod v)) af
  { fechas := st.fechas
    apuestas := setA st.apuestas fecha af2
    resumen := setA st.resumen fecha (setA rf cod entry) }

/-- Lines 949-996 after the date update: parenthesis guard, row match,
current-date guard, name mapping, amount parse, race extraction, record. -/
def procesaResto (st2 : EstadoPalermo) (fec2 : Option (List Char)) (ls : List Char) :
    EstadoPalermo × Option (List Char) :=
  if ¬ (ls.contains '(' ∧ ls.contains ')') then (st2, fec2)
  else
    match matchFila ls with
    | none => (st2, fec2)
    | some (d, m, g3) =>
      match fec2 with
      | none => (st2, fec2)
      | some f =>
        match mapear_nombre_palermo (stripPy d) with
        | none => (st2, fec2)
        | some cod =>
          match parsearMonto (stripPy m) with
          | none => (st2, fec2)
          | some v =>
            if (extraer_carreras_palermo (stripPy g3)).isEmpty then (st2, fec2)
            else (registraFila st2 f cod v (extraer_carreras_palermo (stripPy g3)), fec2)

/-- Lines 938-996: process one raw line, updating state and current date. -/
def procesaLinea (st : EstadoPalermo) (fec : Option (List Char)) (linea : List Char) :
    EstadoPalermo × Option (List Char) :=
  let ls := stripPy linea
  if ls.isEmpty then (st, fec)
  else
    let ds := fechasEnLinea ls
    let st2 : EstadoPalermo :=
      { st with fechas := ds.foldl (fun fs f => if f ∈ fs then fs else fs ++ [f]) st.fechas }
    let fec2 : Option (List Char) :=
      match ds.getLast? with
      | some f => some f
      | none => fec
    procesaResto st2 fec2 ls

/-- Process a page's lines, threading the page-local current date. -/
def procesaLineas (st : EstadoPalermo) (fec : Option (List Char)) :
    List (List Char) → EstadoPalermo
  | [] => st
  | l :: rest => procesaLineas (procesaLinea st fec l).1 (procesaLinea st fec l).2 rest

/-- Process one page: the tracked date starts at `None` (line 935). -/
def procesaPagina (st : EstadoPalermo) (texto : String) : EstadoPalermo :=
  procesaLineas st none (splitLines texto)

/-- `_leer_palermo_desde_pdf` (lines 876-1002) over the page texts. -/
def leer_palermo_desde_pdf (pages : List String) : EstadoPalermo :=
  pages.foldl procesaPagina estadoInicial

theorem registraFila_keys (st : EstadoPalermo) (fecha : List Char) (cod : String) (v : ℚ)
    (carreras : List Int) {f : List Char}
    (h : f ∈ keysA (registraFila st fecha cod v carreras).apuestas) :
    f ∈ keysA st.apuestas ∨ f = fecha := by
  simp only [registraFila] at h
  exact mem_keysA_setA.mp h

theorem procesaResto_snd (st2 : EstadoPalermo) (fec2 : Option (List Char)) (ls : List Char) :
    (procesaResto st2 fec2 ls).2 = fec2 := by
  unfold procesaResto
  repeat' split
  all_goals rfl

theorem procesaResto_none (st2 : EstadoPalermo) (ls : List Char) :
    procesaResto st2 none ls = (st2, none) := by
  unfold procesaResto
  repeat' split
  all_goals first
  | rfl
  | simp_all

theorem procesaResto_apuestas (st2 : EstadoPalermo) (fec2 : Option (List Char))
    (ls : List Char) {f : List Char}
    (h : f ∈ keysA (procesaResto st2 fec2 ls).1.apuestas) :
    f ∈ keysA st2.apuestas ∨ fec2 = some f := by
  revert h
  unfold procesaResto
  repeat' split
  all_goals intro h
  all_goals
    first
    | exact Or.inl h
    | exact Or.elim (registraFila_keys _ _ _ _ _ h) Or.inl (fun hm => Or.inr (by rw [hm]))

theorem procesaLinea_snd (st : EstadoPalermo) (fec : Option (List Char)) (l : List Char) :
    (procesaLinea st fec l).2 =
      if (stripPy l).isEmpty then fec
      else
        match (fechasEnLinea (stripPy l)).getLast? with
        | some f => some f
        | none => fec := by
  simp only [procesaLinea]
  by_cases he : (stripPy l).isEmpty
  · rw [if_pos he, if_pos he]
  · rw [if_neg he, if_neg he]
    exact procesaResto_snd _ _ _

theorem procesaLinea_sin_fecha (st : EstadoPalermo) (l : List Char)
    (h : fechasEnLinea (stripPy l) = []) : procesaLinea st none l = (st, none) := by
  simp only [procesaLinea]
  by_cases he : (stripPy l).isEmpty
  · rw [if_pos he]
  · rw [if_neg he, h]
    exact procesaResto_none st (stripPy l)

theorem mem_of_getLast?_aux {α : Type} : ∀ {l : List α} {a : α}, l.getLast? = some a → a ∈ l
  | [], _, h => by simp at h
  | [_], _, h => by simp_all
  | x :: y :: t, a, h => by
    rw [List.getLast?_cons_cons] at h
    exact List.mem_cons_of_mem x (mem_of_getLast?_aux h)

theorem procesaLinea_fec_origen (st : EstadoPalermo) (fec : Option (List Char))
    (l : List Char) {f : List Char} (h : (procesaLinea st fec l).2 = some f) :
    fec = some f ∨ f ∈ fechasEnLinea (stripPy l) := by
  rw [procesaLinea_snd] at h
  by_cases he : (stripPy l).isEmpty
  · rw [if_pos he] at h
    exact Or.inl h
  · rw [if_neg he] at h
    cases hl : (fechasEnLinea (stripPy l)).getLast? with
    | some g =>
      rw [hl] at h
      obtain rfl := Option.some.inj h
      exact Or.inr (mem_of_getLast?_aux hl)
    | none =>
      rw [hl] at h
      exact Or.inl h

theorem procesaLinea_apuestas (st : EstadoPalermo) (fec : Option (List Char))
    (l : List Char) {f : List Char}
    (h : f ∈ keysA (procesaLinea st fec l).1.apuestas) :
    f ∈ keysA st.apuestas ∨ (procesaLinea st fec l).2 = some f := by
  revert h
  unfold procesaLinea
  by_cases he : (stripPy l).isEmpty
  · rw [if_pos he]
    exact fun h => Or.inl h
  · rw [if_neg he]
    intro h
    have h2 := procesaResto_apuestas _ _ _ h
    rcases h2 with h2 | h2
    · exact Or.inl h2
    · right
      rw [procesaResto_snd]
      exact h2

theorem procesaLineas_apuestas_inv (lines : List (List Char)) :
    ∀ (st : EstadoPalermo) (fec : Option (List Char)) (f : List Char),
      f ∈ keysA (procesaLineas st fec lines).apuestas →
      f ∈ keysA st.apuestas ∨ fec = some f ∨ ∃ l ∈ lines, f ∈ fechasEnLinea (stripPy l) := by
  induction lines with
  | nil =>
    intro st fec f h
    exact Or.inl h
  | cons l t ih =>
    intro st fec f h
    rcases ih (procesaLinea st fec l).1 (procesaLinea st fec l).2 f h with h1 | h1 | h1
    · rcases procesaLinea_apuestas st fec l h1 with h2 | h2
      · exact Or.inl h2
      · rcases procesaLinea_fec_origen st fec l h2 with h3 | h3
        · exact Or.inr (Or.inl h3)
        · exact Or.inr (Or.inr ⟨l, by simp, h3⟩)
    · rcases procesaLinea_fec_origen st fec l h1 with h3 | h3
      · exact Or.inr (Or.inl h3)
      · exact Or.inr (Or.inr ⟨l, by simp, h3⟩)
    · obtain ⟨l0, hl0, hf0⟩ := h1
      exact Or.inr (Or.inr ⟨l0, by simp [hl0], hf0⟩)

theorem procesaLineas_prefijo (st : EstadoPalermo) (pref rest : List (List Char))
    (hpref : ∀ l ∈ pref, fechasEnLinea (stripPy l) = []) :
    procesaLineas st none (pref ++ rest) = procesaLineas st none rest := by
  induction pref generalizing st with
  | nil => rfl
  | cons l t ih =>
    show procesaLineas (procesaLinea st none l).1 (procesaLinea st none l).2 (t ++ rest) = _
    rw [procesaLinea_sin_fecha st l (hpref l (by simp))]
    exact ih st (fun x hx => hpref x (by simp [hx]))

/-- C10: the tracked date is reset at the start of every page, so a row on a
line before the first date token of its page is discarded — a date-free
prefix of a page's lines leaves the processing unchanged whatever state
earlier pages produced; a whole page without date tokens contributes nothing
even after pages that carried dates; every date newly keying an entry after a
page is processed appears as a date token on a line of that same page; and
every date keying a recorded entry appears as a date token on a line of some
processed page. -/
theorem c10_palermo_fechas :
    (∀ (st : EstadoPalermo) (pref rest : List (List Char)),
      (∀ l ∈ pref, fechasEnLinea (stripPy l) = []) →
      procesaLineas st none (pref ++ rest) = procesaLineas st none rest) ∧
    (∀ (pages : List String) (p : String),
      (∀ l ∈ splitLines p, fechasEnLinea (stripPy l) = []) →
      leer_palermo_desde_pdf (pages ++ [p]) = leer_palermo_desde_pdf pages) ∧
    (∀ (st : EstadoPalermo) (p : String) (f : List Char),
      f ∈ keysA (procesaPagina st p).apuestas →
      f ∈ keysA st.apuestas ∨ ∃ l ∈ splitLines p, f ∈ fechasEnLinea (stripPy l)) ∧
    (∀ (pages : List String) (f : List Char),
      f ∈ keysA (leer_palermo_desde_pdf pages).apuestas →
      ∃ p ∈ pages, ∃ l ∈ splitLines p, f ∈ fechasEnLinea (stripPy l)) := by
  refine ⟨procesaLineas_prefijo, ?_, ?_, ?_⟩
  · intro pages p hp
    unfold leer_palermo_desde_pdf
    rw [List.foldl_append]
    simp only [List.foldl_cons, List.foldl_nil]
    show procesaLineas (List.foldl procesaPagina estadoInicial pages) none (splitLines p) = _
    have h := procesaLineas_prefijo (List.foldl procesaPagina estadoInicial pages)
      (splitLines p) [] hp
    rw [List.append_nil] at h
    rw [h]
    rfl
  · intro st p f h
    rcases procesaLineas_apuestas_inv (splitLines p) st none f h with h2 | h2 | h2
    · exact Or.inl h2
    · exact absurd h2 (by simp)
    · exact Or.inr h2
  · have hgen : ∀ (pages : List String) (st : EstadoPalermo) (f : List Char),
        f ∈ keysA (List.foldl procesaPagina st pages).apuestas →
        f ∈ keysA st.apuestas ∨ ∃ p ∈ pages, ∃ l ∈ splitLines p,
          f ∈ fechasEnLinea (stripPy l) := by
      intro pages
      induction pages with
      | nil => exact fun st f h => Or.inl h
      | cons p t ih =>
        intro st f h
        rcases ih (procesaPagina st p) f h with h1 | h1
        · rcases procesaLineas_apuestas_inv (splitLines p) st none f h1 with h2 | h2 | h2
          · exact Or.inl h2
          · exact absurd h2 (by simp)
          · exact Or.inr ⟨p, by simp, h2⟩
        · obtain ⟨q, hq, hrest⟩ := h1
          exact Or.inr ⟨q, by simp [hq], hrest⟩
    intro pages f h
    rcases hgen pages estadoInicial f h with h1 | h1
    · exact absurd h1 (by simp [estadoInicial, keysA])
    · exact h1

/-- C10 witness: a bet row on a line before any date token of its page is
ignored (the processing of the two-line prefix equals processing nothing),
at concrete inputs. -/
theorem c10_witness :
    procesaLineas estadoInicial none
        (["Doble: ($ 1.000.-) 1ª, 2ª".toList, "Exacta: ($ 500.-) 1ª".toList] ++ []) =
      procesaLineas estadoInicial none [] :=
  c10_palermo_fechas.1 estadoInicial
    ["Doble: ($ 1.000.-) 1ª, 2ª".toList, "Exacta: ($ 500.-) 1ª".toList] [] (by decide)

end Carreras
